import Mathlib

/-!
Shallow embedding of the scheduling core of `calendar_maker.py`
(Calendar-Automator repository), together with theorems checking the
natural-language specification against it.

Modelling conventions:
* Timestamps are rationals (`ℚ`), counted in minutes of local time since a
  fixed epoch (2025-01-01 00:00 local).  Calendar dates are integers (`ℤ`),
  counted in days since the same epoch; `dateOf` truncates a timestamp to
  its date exactly as Python's `datetime.date()` does for local datetimes.
* Python's `sorted` with a key is a stable ascending sort; it is embedded
  as the stable insertion sort `sortBy lt` where `lt` is the strict
  comparison on the key.
* Python dicts keyed by date are embedded as total functions `ℤ → _`
  together with an explicit key list where iteration order matters.
* `float` arithmetic is embedded by exact rational arithmetic; in every
  concrete input used below the Python floats are dyadic rationals small
  enough that all the arithmetic performed on them is exact, so the
  embedding agrees with the source bit for bit there.
-/

namespace CalendarMaker

/-! ### Stable insertion sort (embedding of Python `sorted`) -/

/-- Insert `x` into `l`, skipping the elements strictly smaller than `x`;
paired with `sortBy` this is exactly a stable ascending sort. -/
def insertBy {α : Type} (lt : α → α → Bool) (x : α) : List α → List α
  | [] => [x]
  | y :: t => if lt y x then y :: insertBy lt x t else x :: y :: t

/-- Stable ascending sort by the strict comparison `lt`
(embedding of Python's `sorted(l, key=...)`). -/
def sortBy {α : Type} (lt : α → α → Bool) : List α → List α
  | [] => []
  | x :: t => insertBy lt x (sortBy lt t)

/-! ### Interval algebra (`merge_busy_blocks`, `subtract_busy_from_window`,
`add_buffer_to_busy_timeline`) -/

/-- A half-open time interval `(start, end)`, in minutes. -/
abbrev IV : Type := ℚ × ℚ

/-- Strict comparison on interval starts, the sort key `lambda x: x[0]`. -/
def ltStart (a b : IV) : Bool := decide (a.1 < b.1)

/-- The fold at the heart of `merge_busy_blocks`: `cs, ce` is the current
accumulated block (`cur_start, cur_end`), `jt` is `join_touching`. -/
def mergeGo (jt : Bool) (cs ce : ℚ) : List IV → List IV
  | [] => [(cs, ce)]
  | (s, e) :: t =>
    if (jt && decide (s ≤ ce)) || (!jt && decide (s < ce)) then
      mergeGo jt cs (max ce e) t
    else
      (cs, ce) :: mergeGo jt s e t

/-- `merge_busy_blocks(blocks, join_touching)` from `calendar_maker.py`:
sort by start, then fold overlapping (or touching) blocks together. -/
def merge_busy_blocks (blocks : List IV) (jt : Bool := true) : List IV :=
  match sortBy ltStart blocks with
  | [] => []
  | (s, e) :: t => mergeGo jt s e t

/-- The fold of `merge_busy_blocks` (join-touching case) started on an
already sorted list: the head seeds the accumulator. -/
def runMerge : List IV → List IV
  | [] => []
  | (s, e) :: t => mergeGo true s e t

/-- The clipping step of `subtract_busy_from_window`: drop blocks outside
the window, clip the rest, keep only non-degenerate results. -/
def clipToWindow (ws we : ℚ) (b : IV) : Option IV :=
  if b.2 ≤ ws ∨ b.1 ≥ we then none
  else
    let s := max b.1 ws
    let e := min b.2 we
    if s < e then some (s, e) else none

/-- The sweep of `subtract_busy_from_window`: `cur` is the cursor, the
remaining list is the sorted clipped busy list. -/
def sweepFree (we : ℚ) (cur : ℚ) : List IV → List IV
  | [] => if cur < we then [(cur, we)] else []
  | (s, e) :: t =>
    if cur < s then (cur, s) :: sweepFree we (max cur e) t
    else sweepFree we (max cur e) t

/-- `subtract_busy_from_window(window_start, window_end, busy_blocks)`. -/
def subtract_busy_from_window (ws we : ℚ) (busy : List IV) : List IV :=
  sweepFree we ws (sortBy ltStart (busy.filterMap (clipToWindow ws we)))

/-- `add_buffer_to_busy_timeline(busy_timeline, buffer_minutes)`. -/
def add_buffer_to_busy_timeline (busy : List IV) (buffer_minutes : ℚ) : List IV :=
  merge_busy_blocks (busy.map (fun b => (b.1 - buffer_minutes, b.2 + buffer_minutes))) true

/-! ### Dates, numeric coercions and small Python helpers -/

/-- Python `int()` applied to a float: truncation toward zero. -/
def truncQ (q : ℚ) : ℤ := if 0 ≤ q then ⌊q⌋ else -⌊-q⌋

/-- `datetime.date()` on a local timestamp in minutes: the day number. -/
def dateOf (t : ℚ) : ℤ := ⌊t / 1440⌋

/-- `datetime.time()` on a local timestamp: minutes since local midnight. -/
def timeOfDay (t : ℚ) : ℚ := t - 1440 * (dateOf t : ℚ)

/-- `date.weekday()` for a day number counted from 2025-01-01, which was a
Wednesday (Python weekday 2). -/
def weekdayOf (d : ℤ) : ℤ := (d + 2) % 7

/-- Python `str.strip()`: drop leading and trailing whitespace. -/
def pyStrip (s : List Char) : List Char :=
  ((s.dropWhile (·.isWhitespace)).reverse.dropWhile (·.isWhitespace)).reverse

/-- Characters after the first `(`, if any (part of the regex
`\((.*?)\)` in `extract_class_from_title`). -/
def afterOpen : List Char → Option (List Char)
  | [] => none
  | c :: t => if c = '(' then some t else afterOpen t

/-- Characters before the first `)`, if any. -/
def upToClose : List Char → Option (List Char)
  | [] => none
  | c :: t => if c = ')' then some [] else (upToClose t).map (c :: ·)

/-- `extract_class_from_title(title)`: the first non-greedy parenthesized
group, stripped, else `"General"`. -/
def extract_class_from_title (title : String) : String :=
  match afterOpen title.toList with
  | none => "General"
  | some rest =>
    match upToClose rest with
    | none => "General"
    | some inner => String.mk (pyStrip inner)

/-! ### Input parsing (`parse_request_inputs`) -/

/-- A JSON scalar as it may appear in the preferences: a number or a
string.  Python's `float()` accepts the former always and the latter only
when it parses. -/
inductive JVal : Type
  | num (q : ℚ)
  | str (s : String)
deriving DecidableEq

/-- `l.all isDigit` for a digit run. -/
def allDigits (l : List Char) : Bool := l.all (·.isDigit)

/-- Value of a digit run. -/
def digitsToNat (l : List Char) : ℕ := l.foldl (fun a c => 10 * a + (c.toNat - 48)) 0

/-- Split a character list at the first `.`. -/
def splitDot : List Char → List Char × Option (List Char)
  | [] => ([], none)
  | c :: t =>
    if c = '.' then ([], some t)
    else
      let r := splitDot t
      (c :: r.1, r.2)

/-- Python `float(s)` on a string: optional sign, decimal digits with at
most one point (exponents and `inf`/`nan` spellings are not modelled; every
string this parser accepts is accepted by Python with the same value, and
strings such as `"nine"` are rejected by both). `none` models the
`ValueError` that `float` raises. -/
def parsePyFloat (s : String) : Option ℚ :=
  let cs := pyStrip s.toList
  let sc : ℚ × List Char :=
    match cs with
    | '-' :: t => (-1, t)
    | '+' :: t => (1, t)
    | _ => (1, cs)
  match splitDot sc.2 with
  | (ip, none) =>
    if ip ≠ [] ∧ allDigits ip then some (sc.1 * (digitsToNat ip : ℚ)) else none
  | (ip, some fp) =>
    if (ip ≠ [] ∨ fp ≠ []) ∧ allDigits ip ∧ allDigits fp then
      some (sc.1 * ((digitsToNat ip : ℚ) + (digitsToNat fp : ℚ) / ((10 : ℚ) ^ fp.length)))
    else none

/-- Python `float(v)` on a JSON scalar. -/
def pyFloat : JVal → Option ℚ
  | .num q => some q
  | .str s => parsePyFloat s

/-- `float(ww.get(key, default))`: a missing key takes the numeric default;
a present value goes through `float`, which may raise (`none`). -/
def pyFloatD (v : Option JVal) (d : ℚ) : Option ℚ :=
  match v with
  | none => some d
  | some j => pyFloat j

/-- The `work_windows` sub-object of `user_preferences`; each field is
absent or a JSON scalar. -/
structure WorkPrefs where
  weekday_start_hour : Option JVal
  weekday_end_hour : Option JVal
  weekend_start_hour : Option JVal
  weekend_end_hour : Option JVal
deriving DecidableEq

/-- The normalized work windows: one clock-hour block for weekdays and one
for weekends (hours since midnight, as rationals). -/
structure WorkWindowSet where
  weekday : IV
  weekend : IV
deriving DecidableEq

/-- `work_windows[wd]` as built by `parse_request_inputs`:
`[weekday_block] if wd <= 4 else [weekend_block]`. -/
def getWW (w : WorkWindowSet) (wd : ℤ) : List IV :=
  if wd ≤ 4 then [w.weekday] else [w.weekend]

/-- The work-window portion of `parse_request_inputs`: each of the four
clock values is defaulted when missing and passed through `float`;
`none` models the exception `float` raises on an unparsable string. -/
def parse_work_windows (p : WorkPrefs) : Option WorkWindowSet := do
  let wd_start ← pyFloatD p.weekday_start_hour 9
  let wd_end ← pyFloatD p.weekday_end_hour 21
  let we_start ← pyFloatD p.weekend_start_hour 10
  let we_end ← pyFloatD p.weekend_end_hour 20
  pure ⟨(wd_start, wd_end), (we_start, we_end)⟩

/-- One entry of the raw `assignments` array: each field is present or
absent; `due_dates` is the parsed timestamp (`none` models `NaT`, i.e. a
missing or unparsable date), `time_spent_hours` and `sessions_needed` are
`none` when missing or non-numeric (pandas `NaN`). -/
structure RawAssignment where
  assignment_id : Option String
  assignment_name : Option String
  class_name : Option String
  due_dates : Option ℚ
  time_spent_hours : Option ℚ
  sessions_needed : Option ℚ
  is_fixed_event : Option Bool
  field_of_study : Option String
  assignment_type : Option String
deriving DecidableEq

/-- One row of the cleaned assignment DataFrame. -/
structure Task where
  assignment_id : Option String
  assignment_name : Option String
  class_name : String
  due_dates : ℚ
  time_spent_hours : ℚ
  sessions_needed : ℤ
  is_fixed_event : Bool
  field_of_study : Option String
  assignment_type : Option String
deriving DecidableEq

/-- The assignment portion of `parse_request_inputs`: rows without a
parsable due date are dropped; missing/non-numeric effort becomes `2.0`;
missing/non-numeric session count becomes `1` and is truncated to an
integer (`astype(int)`); `is_fixed_event` defaults to `False` and
`class_name` to `"General"`. -/
def parse_assignments (raw : List RawAssignment) : List Task :=
  raw.filterMap fun r =>
    match r.due_dates with
    | none => none
    | some due =>
      some
        { assignment_id := r.assignment_id
          assignment_name := r.assignment_name
          class_name := r.class_name.getD "General"
          due_dates := due
          time_spent_hours := r.time_spent_hours.getD 2
          sessions_needed := truncQ (r.sessions_needed.getD 1)
          is_fixed_event := r.is_fixed_event.getD false
          field_of_study := r.field_of_study
          assignment_type := r.assignment_type }

/-! ### Session generation (`generate_sessions_from_assignments`) -/

/-- One derived session dict. -/
structure SessionR where
  assignment_id : String
  assignment_name : String
  class_name : String
  duration_minutes : ℤ
  due_date : ℤ
  full_due_dt : ℚ
  is_overdue : Bool
  field_of_study : String
  assignment_type : String
deriving DecidableEq

/-- The sessions one assignment row contributes, in loop order.  The float
arithmetic `total_hours * 60`, `//` and `%` is embedded exactly over `ℚ`:
`base = floor(T / n)` and `remainder = int(T - n * base)`. -/
def generateOne (row : Task) (current_date : ℤ) : List SessionR :=
  let total_time_mins : ℚ := row.time_spent_hours * 60
  let num_sessions : ℤ := max 1 row.sessions_needed
  let base_duration : ℤ := ⌊total_time_mins / (num_sessions : ℚ)⌋
  let remainder : ℤ := truncQ (total_time_mins - (num_sessions : ℚ) * (base_duration : ℚ))
  let original_due : ℤ := dateOf row.due_dates
  let is_over : Bool := decide (original_due < current_date)
  let effective_due : ℤ := if is_over then current_date + 7 else max original_due current_date
  let a_name : String := row.assignment_name.getD "Study Task"
  let c0 : String := row.class_name
  let c_name : String := if c0 = "General" then extract_class_from_title a_name else c0
  (List.range num_sessions.toNat).map fun (i : ℕ) =>
    { assignment_id := row.assignment_id.getD ("task_" ++ toString i)
      assignment_name := a_name
      class_name := c_name
      duration_minutes := base_duration + (if (i : ℤ) < remainder then 1 else 0)
      due_date := effective_due
      full_due_dt := row.due_dates
      is_overdue := is_over
      field_of_study := row.field_of_study.getD ""
      assignment_type := row.assignment_type.getD "" }

/-- The sort key `lambda x: (x["is_overdue"], x["full_due_dt"])` as a
strict comparison (Python orders `False < True`). -/
def ltSessKey (a b : SessionR) : Bool :=
  (!a.is_overdue && b.is_overdue) ||
    ((a.is_overdue == b.is_overdue) && decide (a.full_due_dt < b.full_due_dt))

/-- `generate_sessions_from_assignments(df_assignments, current_date)`. -/
def generate_sessions_from_assignments (df : List Task) (current_date : ℤ) : List SessionR :=
  sortBy ltSessKey ((df.map (generateOne · current_date)).flatten)

/-! ### The scheduler (`schedule_sessions_load_balanced`) -/

/-- One scheduled record: `rec = session.copy()` plus `start`, `end`,
`date`. -/
structure Placed where
  session : SessionR
  start : ℚ
  stop : ℚ
  date : ℤ
deriving DecidableEq

/-- The scheduler state threaded through (and mutated by) both passes:
per-date free blocks, per-date used minutes, per-date used classes. -/
structure SState where
  blocks : ℤ → List IV
  usage : ℤ → ℤ
  classes : ℤ → List String

/-- The inner first-fit scan of one day's free blocks: find the first
block at least `dur` long, carve the session off its front, shrink the
block to start after the break or drop it. Returns
`(session_start, session_end, new_block_list)`. -/
def placeInDay (dur brk : ℚ) : List IV → Option (ℚ × ℚ × List IV)
  | [] => none
  | (s, e) :: t =>
    if dur ≤ e - s then
      some (s, s + dur, if s + dur + brk < e then (s + dur + brk, e) :: t else t)
    else
      (placeInDay dur brk t).map (fun r => (r.1, r.2.1, (s, e) :: r.2.2))

/-- The candidate-date loop for one session: stop at the first date past
the due date, skip dates over the cap or failing the spacing rule, place
first-fit in the first date that admits the session. -/
def tryDates (maxMinutes : ℤ) (brk : ℚ) (enforce : Bool) (s : SessionR) (st : SState) :
    List ℤ → Option (Placed × SState)
  | [] => none
  | d :: rest =>
    if s.due_date < d then none
    else if maxMinutes < st.usage d + s.duration_minutes then
      tryDates maxMinutes brk enforce s st rest
    else if enforce ∧ s.class_name ∈ st.classes d ∧ s.class_name ≠ "General" then
      tryDates maxMinutes brk enforce s st rest
    else
      match placeInDay (s.duration_minutes : ℚ) brk (st.blocks d) with
      | none => tryDates maxMinutes brk enforce s st rest
      | some r =>
        some
          ({ session := s, start := r.1, stop := r.2.1, date := d },
            { blocks := Function.update st.blocks d r.2.2
              usage := Function.update st.usage d (st.usage d + s.duration_minutes)
              classes := Function.update st.classes d (s.class_name :: st.classes d) })

/-- The session loop: each session is placed (appended to `scheduled`) or
left in `unscheduled`, in input order. -/
def scheduleGo (dates : List ℤ) (maxMinutes : ℤ) (brk : ℚ) (enforce : Bool) (st : SState) :
    List SessionR → List Placed × List SessionR × SState
  | [] => ([], [], st)
  | s :: rest =>
    match tryDates maxMinutes brk enforce s st dates with
    | some r =>
      let t := scheduleGo dates maxMinutes brk enforce r.2 rest
      (r.1 :: t.1, t.2.1, t.2.2)
    | none =>
      let t := scheduleGo dates maxMinutes brk enforce st rest
      (t.1, s :: t.2.1, t.2.2)

/-- `schedule_sessions_load_balanced`: `keys` are the keys of the
free-block map (sorted inside, as in the source), `st` carries the
free blocks and the two trackers shared across calls. -/
def schedule_sessions_load_balanced (keys : List ℤ) (st : SState) (sessions : List SessionR)
    (max_hours_per_day : ℤ) (break_minutes : ℚ) (enforce_spacing : Bool) :
    List Placed × List SessionR × SState :=
  scheduleGo (sortBy (fun a b => decide (a < b)) keys) (max_hours_per_day * 60)
    break_minutes enforce_spacing st sessions

/-! ### Merge step (`merge_contiguous_sessions`) and output -/

/-- One entry of `all_scheduled` (a fixed task or a scheduled session): the
fields `merge_contiguous_sessions` and `create_output_ics` read.  Fixed
tasks carry no `assignment_id` and no `full_due_dt` key (`none`). -/
structure OutEntry where
  assignment_id : Option String
  assignment_name : Option String
  class_name : String
  assignment_type : Option String
  start : ℚ
  stop : ℚ
  duration_minutes : ℚ
  is_exam : Bool
  full_due_dt : Option ℚ
deriving DecidableEq

/-- A scheduled session as a member of `all_scheduled`. -/
def toOutEntry (p : Placed) : OutEntry :=
  { assignment_id := some p.session.assignment_id
    assignment_name := some p.session.assignment_name
    class_name := p.session.class_name
    assignment_type := some p.session.assignment_type
    start := p.start
    stop := p.stop
    duration_minutes := (p.session.duration_minutes : ℚ)
    is_exam := false
    full_due_dt := some p.session.full_due_dt }

/-- Whether the fold of `merge_contiguous_sessions` merges `nb` into the
current block: same `assignment_name` and touching end/start. -/
def mergeable (a b : OutEntry) : Prop :=
  a.assignment_name = b.assignment_name ∧ a.stop = b.start

instance (a b : OutEntry) : Decidable (mergeable a b) := by
  unfold mergeable; infer_instance

/-- The block `merge_contiguous_sessions` builds from one maximal run:
the head entry with its end pushed to the last entry's end and the
durations summed. -/
def runSummary (h : OutEntry) (t : List OutEntry) : OutEntry :=
  t.foldl
    (fun cur nb =>
      { cur with stop := nb.stop, duration_minutes := cur.duration_minutes + nb.duration_minutes })
    h

/-- The fold of `merge_contiguous_sessions` over the sorted list. -/
def mergeContigGo (cur : OutEntry) : List OutEntry → List OutEntry
  | [] => [cur]
  | nb :: t =>
    if mergeable cur nb then
      mergeContigGo
        { cur with stop := nb.stop, duration_minutes := cur.duration_minutes + nb.duration_minutes } t
    else cur :: mergeContigGo nb t

/-- `merge_contiguous_sessions(scheduled_sessions)`. -/
def merge_contiguous_sessions (l : List OutEntry) : List OutEntry :=
  match sortBy (fun a b => decide (a.start < b.start)) l with
  | [] => []
  | h :: t => mergeContigGo h t

/-- One emitted calendar event (`create_output_ics`); date formatting in
the description is abstracted to the raw minute timestamp. -/
structure VEvent where
  summary : String
  dtstart : ℚ
  dtend : ℚ
  description : String
deriving DecidableEq

/-- The `Deadline:` rendering: `"Unknown"` for a missing deadline. -/
def formatDeadline : Option ℚ → String
  | none => "Unknown"
  | some t => toString t.num ++ "/" ++ toString t.den

/-- The event list `create_output_ics` serializes. -/
def create_output_events (l : List OutEntry) : List VEvent :=
  l.map fun task =>
    { summary := (if task.is_exam then "EXAM: " else "Do: ") ++ task.assignment_name.getD "None"
      dtstart := task.start
      dtend := task.stop
      description :=
        "Class: " ++ task.class_name ++ "\nDeadline: " ++ formatDeadline task.full_due_dt ++
          "\nType: " ++ task.assignment_type.getD "Task" }

/-! ### Free-block construction (`build_free_blocks`) -/

/-- The consecutive day numbers from `d0` to `d1` inclusive. -/
def dateRange (d0 d1 : ℤ) : List ℤ :=
  (List.range (d1 + 1 - d0).toNat).map (fun (i : ℕ) => d0 + (i : ℤ))

/-- `(current_day_start, current_day_end)` for day `d`: the day clipped to
the horizon and, on the current day, to `now`. -/
def daySpan (hs he now : ℚ) (d : ℤ) : ℚ × ℚ :=
  let day_start_cal : ℚ := (d : ℚ) * 1440
  let effective_start := max day_start_cal hs
  let effective_start := if d = dateOf now then max effective_start now else effective_start
  (effective_start, min (day_start_cal + 1440) he)

/-- The free blocks of one (active) day: clip the busy timeline to the day,
sort it, and subtract it from each work window clipped to the day. -/
def dayFreeBlocks (ww : WorkWindowSet) (busy : List IV) (hs he now : ℚ) (d : ℤ) : List IV :=
  let sp := daySpan hs he now d
  let day_start_cal : ℚ := (d : ℚ) * 1440
  let day_busy :=
    sortBy ltStart
      (busy.filterMap fun b =>
        if b.2 ≤ sp.1 ∨ b.1 ≥ sp.2 then none
        else
          let s := max b.1 sp.1
          let e := min b.2 sp.2
          if s < e then some (s, e) else none)
  ((getWW ww (weekdayOf d)).map fun w =>
      let w_start := day_start_cal + 60 * w.1
      let w_end := day_start_cal + 60 * w.2
      let a := max w_start sp.1
      let b := min w_end sp.2
      if a < b then subtract_busy_from_window a b day_busy else []).flatten

/-- `build_free_blocks(...)`: the map from active dates to free blocks,
as its key list plus lookup function (a day whose span is empty gets no
key, exactly as the source's `continue` skips the dict entry). -/
def build_free_blocks (ww : WorkWindowSet) (busy : List IV) (hs he now : ℚ) :
    List ℤ × (ℤ → List IV) :=
  let keys := (dateRange (dateOf hs) (dateOf he)).filter fun d => (daySpan hs he now d).1 < (daySpan hs he now d).2
  (keys, fun d => if d ∈ keys then dayFreeBlocks ww busy hs he now d else [])

/-! ### Top-level run (`process_schedule_request`) -/

/-- The run output: the returned dict (its constant `"status"` field is
omitted) together with the event list of the serialized document. -/
structure RunResult where
  ics_filename : String
  scheduled_count : ℕ
  unscheduled_count : ℕ
  events : List VEvent
deriving DecidableEq

/-- `int(datetime.now().timestamp())` relative to the model epoch:
whole seconds of the system-clock reading. -/
def pyTimestampSec (sysNow : ℚ) : ℤ := truncQ (60 * sysNow)

/-- Day number of `DEMO_START_DATE = "2025-09-01"` (set in the source). -/
def demoStartDate : ℤ := 243

/-- The largest due timestamp of a task list (`df["due_dates"].max()`). -/
def maxDue : List Task → ℚ
  | [] => 0
  | t :: r => (r.map (·.due_dates)).foldl max t.due_dates

/-- `process_schedule_request`, with `DEMO_START_DATE` set as in the
source.  The uploaded calendar documents appear as their parsed busy
intervals (`parse_ics_bytes` wraps an external library and is not
modelled).  `sysNow` is the system-clock reading `datetime.now()`: the
source combines its time of day with the demo date and stamps the output
filename with its epoch seconds (the source calls `datetime.now()` twice;
both calls are modelled as the same reading).  `none` models an exception
escaping the run (`float` raising in `parse_request_inputs`). -/
def process_schedule_request (prefs : WorkPrefs) (raw : List RawAssignment)
    (uploaded : List (List IV)) (sysNow : ℚ) : Option RunResult := do
  let ww ← parse_work_windows prefs
  let tasks := parse_assignments raw
  let today_dt : ℚ := (demoStartDate : ℚ) * 1440 + timeOfDay sysNow
  let horizon_start : ℚ := (dateOf today_dt : ℚ) * 1440
  let horizon_end : ℚ :=
    if tasks ≠ [] then max (horizon_start + 30 * 1440) (maxDue tasks + 14 * 1440)
    else horizon_start + 30 * 1440
  let fixed := tasks.filter (·.is_fixed_event)
  let floating := tasks.filter fun t => !t.is_fixed_event
  let fixedEntries : List OutEntry := fixed.map fun r =>
    { assignment_id := none
      assignment_name := r.assignment_name
      class_name := r.class_name
      assignment_type := r.assignment_type
      start := r.due_dates
      stop := r.due_dates + 60 * r.time_spent_hours
      duration_minutes := r.time_spent_hours * 60
      is_exam := true
      full_due_dt := none }
  let busy_blocks := uploaded.flatten ++ fixedEntries.map fun t => (t.start, t.stop)
  let buffered := add_buffer_to_busy_timeline (merge_busy_blocks busy_blocks true) 15
  let fb := build_free_blocks ww buffered horizon_start horizon_end today_dt
  let floatingSessions := generate_sessions_from_assignments floating (dateOf today_dt)
  let st0 : SState := ⟨fb.2, fun _ => 0, fun _ => []⟩
  let p1 := schedule_sessions_load_balanced fb.1 st0 floatingSessions 8 15 true
  let p2 :=
    if p1.2.1 ≠ [] then schedule_sessions_load_balanced fb.1 p1.2.2 p1.2.1 24 15 false
    else ([], [], p1.2.2)
  let all_scheduled := fixedEntries ++ p1.1.map toOutEntry ++ p2.1.map toOutEntry
  let final := merge_contiguous_sessions all_scheduled
  pure
    { ics_filename := "optimized_schedule_" ++ toString (pyTimestampSec sysNow) ++ ".ics"
      scheduled_count := all_scheduled.length
      unscheduled_count := p2.2.1.length
      events := create_output_events final }

/-! ### Predicates used by the specification theorems -/

/-- Two half-open intervals do not intersect (one ends before the other
begins). -/
def Disj (a b : IV) : Prop := a.2 ≤ b.1 ∨ b.2 ≤ a.1

instance (a b : IV) : Decidable (Disj a b) := by unfold Disj; infer_instance

/-- The time interval a scheduled session occupies. -/
def pIV (p : Placed) : IV := (p.start, p.stop)

/-- Two scheduled sessions overlap in time (share an inner point). -/
def overlapP (p q : Placed) : Prop := max p.start q.start < min p.stop q.stop

instance (p q : Placed) : Decidable (overlapP p q) := by unfold overlapP; infer_instance

/-- The scheduler-state invariant: per-date free blocks pairwise disjoint,
already-placed sessions pairwise disjoint per date, and every placed
session disjoint from every free block of its date. -/
def InvS (bl : ℤ → List IV) (placed : List Placed) : Prop :=
  (∀ d, (bl d).Pairwise Disj) ∧
  placed.Pairwise (fun p q => p.date = q.date → Disj (pIV p) (pIV q)) ∧
  ∀ p ∈ placed, ∀ b ∈ bl p.date, Disj (pIV p) b

/-- A point of the window not covered by any busy interval (half-open
reading on both). -/
def freePt (ws we : ℚ) (busy : List IV) (x : ℚ) : Prop :=
  ws ≤ x ∧ x < we ∧ ∀ b ∈ busy, ¬(b.1 ≤ x ∧ x < b.2)

/-- Strict lexicographic comparison on intervals, used to fix a canonical
order among blocks sharing a start. -/
def lexLt (a b : IV) : Bool := decide (a.1 < b.1 ∨ (a.1 = b.1 ∧ a.2 < b.2))

/-! ### Concrete inputs used by counterexamples and witnesses -/

/-- A floating task shape used by several concrete inputs below. -/
def mkTask (id nm cl : String) (due effort : ℚ) (n : ℤ) : Task :=
  { assignment_id := some id
    assignment_name := some nm
    class_name := cl
    due_dates := due
    time_spent_hours := effort
    sessions_needed := n
    is_fixed_event := false
    field_of_study := none
    assignment_type := none }

/-- A 50-minute session due on day 0, used by the scheduler inputs. -/
def mkSess (id : String) : SessionR :=
  { assignment_id := id
    assignment_name := "S"
    class_name := "General"
    duration_minutes := 50
    due_date := 0
    full_due_dt := 0
    is_overdue := false
    field_of_study := ""
    assignment_type := "" }

/-- A free-block map whose day-0 entry holds two *overlapping* blocks. -/
def cexBlocks : ℤ → List IV := fun _ => [(0, 100), (0, 100)]

/-- The scheduler state built from `cexBlocks` with fresh trackers. -/
def cexState : SState := ⟨cexBlocks, fun _ => 0, fun _ => []⟩

/-- A well-formed free-block map: one block per day. -/
def wBlocks : ℤ → List IV := fun _ => [(0, 100)]

/-- A scheduled `all_scheduled` entry shape used by concrete inputs. -/
def mkOut (id nm : String) (s e : ℚ) : OutEntry :=
  { assignment_id := some id
    assignment_name := some nm
    class_name := "General"
    assignment_type := none
    start := s
    stop := e
    duration_minutes := e - s
    is_exam := false
    full_due_dt := some 0 }

end CalendarMaker

namespace CalendarMaker

/-! ### Generic facts about the stable insertion sort -/

theorem insertBy_perm {α : Type} (lt : α → α → Bool) (x : α) :
    ∀ l : List α, (insertBy lt x l).Perm (x :: l) := by
  intro l
  induction l with
  | nil => simp [insertBy]
  | cons y t ih =>
    by_cases h : lt y x
    · simp only [insertBy, h, if_pos]
      exact ((ih.cons y).trans (List.Perm.swap x y t))
    · simp [insertBy, h]

theorem sortBy_perm {α : Type} (lt : α → α → Bool) :
    ∀ l : List α, (sortBy lt l).Perm l := by
  intro l
  induction l with
  | nil => simp [sortBy]
  | cons x t ih =>
    exact (insertBy_perm lt x (sortBy lt t)).trans (ih.cons x)

theorem insertBy_pairwise {α : Type} (lt : α → α → Bool)
    (hasym : ∀ a b, lt a b = true → lt b a = false)
    (hneg : ∀ a b c, lt b a = false → lt c b = false → lt c a = false)
    (x : α) :
    ∀ l : List α, l.Pairwise (fun a b => lt b a = false) →
      (insertBy lt x l).Pairwise (fun a b => lt b a = false) := by
  intro l
  induction l with
  | nil => simp [insertBy]
  | cons y t ih =>
    intro hp
    rw [List.pairwise_cons] at hp
    by_cases h : lt y x
    · simp only [insertBy, h, if_pos, List.pairwise_cons]
      refine ⟨?_, ih hp.2⟩
      intro z hz
      rcases List.mem_cons.1 ((insertBy_perm lt x t).mem_iff.1 hz) with hzx | hzt
      · subst hzx; exact hasym y z h
      · exact hp.1 z hzt
    · simp only [insertBy, h, if_neg, Bool.not_eq_true, List.pairwise_cons]
      have hyx : lt y x = false := by simpa using h
      refine ⟨?_, hp.1, hp.2⟩
      intro z hz
      rcases List.mem_cons.1 hz with hzy | hzt
      · subst hzy; exact hyx
      · exact hneg x y z hyx (hp.1 z hzt)

theorem sortBy_pairwise {α : Type} (lt : α → α → Bool)
    (hasym : ∀ a b, lt a b = true → lt b a = false)
    (hneg : ∀ a b c, lt b a = false → lt c b = false → lt c a = false) :
    ∀ l : List α, (sortBy lt l).Pairwise (fun a b => lt b a = false) := by
  intro l
  induction l with
  | nil => simp [sortBy]
  | cons x t ih => exact insertBy_pairwise lt hasym hneg x (sortBy lt t) ih

theorem sortBy_of_pairwise {α : Type} (lt : α → α → Bool) :
    ∀ l : List α, l.Pairwise (fun a b => lt b a = false) → sortBy lt l = l := by
  intro l
  induction l with
  | nil => simp [sortBy]
  | cons x t ih =>
    intro hp
    rw [List.pairwise_cons] at hp
    rw [sortBy, ih hp.2]
    cases t with
    | nil => simp [insertBy]
    | cons y t2 =>
      have : lt y x = false := hp.1 y (by simp)
      simp [insertBy, this]

/-! ### Facts about `generateOne` (session decomposition) -/

theorem range_map_ite_sum (b rem : ℤ) (hrem : 0 ≤ rem) :
    ∀ m : ℕ, (((List.range m).map fun (i : ℕ) => b + if (i : ℤ) < rem then 1 else 0).sum)
      = (m : ℤ) * b + min rem (m : ℤ) := by
  intro m
  induction m with
  | zero => simp [min_eq_right hrem]
  | succ k ih =>
    rw [List.range_succ, List.map_append, List.sum_append, ih]
    simp only [List.map_cons, List.map_nil, List.sum_cons, List.sum_nil]
    by_cases h : (k : ℤ) < rem
    · simp only [h, if_pos]
      push_cast
      have h1 : min rem (k : ℤ) = (k : ℤ) := min_eq_right (by omega)
      have h2 : min rem ((k : ℤ) + 1) = (k : ℤ) + 1 := min_eq_right (by omega)
      rw [h1, h2]; ring
    · simp only [h, if_neg, not_false_iff]
      push_cast
      have h1 : min rem (k : ℤ) = rem := min_eq_left (by omega)
      have h2 : min rem ((k : ℤ) + 1) = rem := min_eq_left (by omega)
      rw [h1, h2]; ring

theorem floor_div_rem (T : ℚ) (n : ℤ) (hn : 1 ≤ n) :
    truncQ (T - (n : ℚ) * (⌊T / (n : ℚ)⌋ : ℚ)) = ⌊T⌋ - n * ⌊T / (n : ℚ)⌋ ∧
    0 ≤ ⌊T⌋ - n * ⌊T / (n : ℚ)⌋ ∧ ⌊T⌋ - n * ⌊T / (n : ℚ)⌋ < n := by
  have hnq : (0 : ℚ) < (n : ℚ) := by exact_mod_cast (by omega : (0 : ℤ) < n)
  have hle : (⌊T / (n : ℚ)⌋ : ℚ) ≤ T / (n : ℚ) := Int.floor_le _
  have hlt : T / (n : ℚ) < (⌊T / (n : ℚ)⌋ : ℚ) + 1 := Int.lt_floor_add_one _
  have h0 : (0 : ℚ) ≤ T - (n : ℚ) * (⌊T / (n : ℚ)⌋ : ℚ) := by
    have := mul_le_mul_of_nonneg_left hle (le_of_lt hnq)
    rw [mul_div_cancel₀ _ (ne_of_gt hnq)] at this
    linarith
  have h1 : T - (n : ℚ) * (⌊T / (n : ℚ)⌋ : ℚ) < (n : ℚ) := by
    have := mul_lt_mul_of_pos_left hlt hnq
    rw [mul_div_cancel₀ _ (ne_of_gt hnq)] at this
    nlinarith
  have hfl : ⌊T - (n : ℚ) * (⌊T / (n : ℚ)⌋ : ℚ)⌋ = ⌊T⌋ - n * ⌊T / (n : ℚ)⌋ := by
    have : (n : ℚ) * (⌊T / (n : ℚ)⌋ : ℚ) = ((n * ⌊T / (n : ℚ)⌋ : ℤ) : ℚ) := by push_cast; ring
    rw [this, Int.floor_sub_int]
  refine ⟨?_, ?_, ?_⟩
  · rw [truncQ, if_pos h0, hfl]
  · rw [← hfl]; exact Int.floor_nonneg.2 h0
  · have : ⌊T - (n : ℚ) * (⌊T / (n : ℚ)⌋ : ℚ)⌋ < n := Int.floor_lt.2 (by exact_mod_cast h1)
    omega

theorem generateOne_length (row : Task) (cd : ℤ) :
    (generateOne row cd).length = (max 1 row.sessions_needed).toNat := by
  simp [generateOne]

theorem generateOne_map_dur (row : Task) (cd : ℤ) :
    (generateOne row cd).map (·.duration_minutes) =
      (List.range (max 1 row.sessions_needed).toNat).map
        (fun (i : ℕ) =>
          ⌊row.time_spent_hours * 60 / ((max 1 row.sessions_needed : ℤ) : ℚ)⌋ +
            if (i : ℤ) < ⌊row.time_spent_hours * 60⌋ -
                max 1 row.sessions_needed *
                  ⌊row.time_spent_hours * 60 / ((max 1 row.sessions_needed : ℤ) : ℚ)⌋
              then 1 else 0) := by
  have hn : 1 ≤ max 1 row.sessions_needed := le_max_left _ _
  obtain ⟨hrem, -, -⟩ :=
    floor_div_rem (row.time_spent_hours * 60) (max 1 row.sessions_needed) hn
  rw [← hrem]
  unfold generateOne
  simp only [List.map_map]
  rfl

theorem generateOne_sum (row : Task) (cd : ℤ) :
    ((generateOne row cd).map (·.duration_minutes)).sum = ⌊row.time_spent_hours * 60⌋ := by
  have hn : 1 ≤ max 1 row.sessions_needed := le_max_left _ _
  obtain ⟨hrem, hrem0, hremn⟩ :=
    floor_div_rem (row.time_spent_hours * 60) (max 1 row.sessions_needed) hn
  rw [generateOne_map_dur, range_map_ite_sum _ _ hrem0]
  have hcast : ((max 1 row.sessions_needed).toNat : ℤ) = max 1 row.sessions_needed := by omega
  rw [hcast, min_eq_left (by omega)]
  ring_nf

theorem generateOne_get (row : Task) (cd : ℤ) (i : ℕ)
    (h : i < (generateOne row cd).length) :
    ((generateOne row cd).get ⟨i, h⟩).duration_minutes =
      ⌊row.time_spent_hours * 60 / ((max 1 row.sessions_needed : ℤ) : ℚ)⌋ +
        (if (i : ℤ) < ⌊row.time_spent_hours * 60⌋ -
            max 1 row.sessions_needed *
              ⌊row.time_spent_hours * 60 / ((max 1 row.sessions_needed : ℤ) : ℚ)⌋
          then 1 else 0) := by
  have hn : 1 ≤ max 1 row.sessions_needed := le_max_left _ _
  obtain ⟨hrem, -, -⟩ :=
    floor_div_rem (row.time_spent_hours * 60) (max 1 row.sessions_needed) hn
  unfold generateOne
  simp only [List.get_map, List.get_range]
  rw [hrem]

theorem generateOne_overdue_fields (row : Task) (cd : ℤ) :
    ∀ s ∈ generateOne row cd,
      s.is_overdue = decide (dateOf row.due_dates < cd) ∧
      s.due_date = (if dateOf row.due_dates < cd then cd + 7
        else max (dateOf row.due_dates) cd) := by
  intro s hs
  unfold generateOne at hs
  simp only [List.mem_map, List.mem_range] at hs
  obtain ⟨i, -, rfl⟩ := hs
  constructor
  · rfl
  · by_cases h : dateOf row.due_dates < cd <;> simp [h]

theorem generateOne_dur_cases (row : Task) (cd : ℤ) :
    ∀ s ∈ generateOne row cd,
      s.duration_minutes =
          ⌊row.time_spent_hours * 60 / ((max 1 row.sessions_needed : ℤ) : ℚ)⌋ ∨
        s.duration_minutes =
          ⌊row.time_spent_hours * 60 / ((max 1 row.sessions_needed : ℤ) : ℚ)⌋ + 1 := by
  intro s hs
  have hmem : s.duration_minutes ∈ (generateOne row cd).map (·.duration_minutes) :=
    List.mem_map_of_mem _ hs
  rw [generateOne_map_dur] at hmem
  simp only [List.mem_map, List.mem_range] at hmem
  obtain ⟨i, -, h⟩ := hmem
  split_ifs at h with hc
  · right; omega
  · left; omega

/-! ### Claim C7: the catch-up policy -/

/-- C7: a task due strictly before the current date is flagged overdue and
its effective due date becomes today + 7; a task due today or later keeps
its actual (date-truncated) due date and is not flagged.  The first
conjunct places the session in the full generator output. -/
theorem catchup_policy (df : List Task) (cd : ℤ) (row : Task) (s : SessionR)
    (hrow : row ∈ df) (hs : s ∈ generateOne row cd) :
    s ∈ generate_sessions_from_assignments df cd ∧
    (dateOf row.due_dates < cd → s.is_overdue = true ∧ s.due_date = cd + 7) ∧
    (cd ≤ dateOf row.due_dates → s.is_overdue = false ∧ s.due_date = dateOf row.due_dates) := by
  obtain ⟨hov, hdue⟩ := generateOne_overdue_fields row cd s hs
  refine ⟨?_, ?_, ?_⟩
  · unfold generate_sessions_from_assignments
    rw [(sortBy_perm _ _).mem_iff]
    exact List.mem_flatten.2 ⟨generateOne row cd, List.mem_map_of_mem _ hrow, hs⟩
  · intro h
    rw [hov, hdue]
    simp [h]
  · intro h
    have h2 : ¬ dateOf row.due_dates < cd := not_lt.2 h
    rw [hov, hdue]
    simp [h2, max_eq_left h]

/-- The generator output at the concrete overdue task used by witnesses. -/
theorem generateOne_late_eval :
    generateOne (mkTask "late" "Late" "A" (-1) 1 1) 0 =
      [⟨"late", "Late", "A", 60, 7, -1, true, "", ""⟩] := by
  have hA : ("A" = "General") = False := by simp
  norm_num [generateOne, mkTask, truncQ, dateOf, List.range_succ, hA]

/-- Witness for C7 at a concrete overdue task. -/
theorem catchup_policy_witness :
    (mkTask "late" "Late" "A" (-1) 1 1 ∈ [mkTask "late" "Late" "A" (-1) 1 1] ∧
      ⟨"late", "Late", "A", 60, 7, -1, true, "", ""⟩ ∈
        generateOne (mkTask "late" "Late" "A" (-1) 1 1) 0) ∧
    ((⟨"late", "Late", "A", 60, 7, -1, true, "", ""⟩ : SessionR) ∈
        generate_sessions_from_assignments [mkTask "late" "Late" "A" (-1) 1 1] 0 ∧
      (dateOf (-1) < 0 →
        (⟨"late", "Late", "A", 60, 7, -1, true, "", ""⟩ : SessionR).is_overdue = true ∧
        (⟨"late", "Late", "A", 60, 7, -1, true, "", ""⟩ : SessionR).due_date = 0 + 7) ∧
      (0 ≤ dateOf (-1) →
        (⟨"late", "Late", "A", 60, 7, -1, true, "", ""⟩ : SessionR).is_overdue = false ∧
        (⟨"late", "Late", "A", 60, 7, -1, true, "", ""⟩ : SessionR).due_date = dateOf (-1))) :=
  ⟨⟨by simp, by simp [generateOne_late_eval]⟩,
    catchup_policy [mkTask "late" "Late" "A" (-1) 1 1] 0 (mkTask "late" "Late" "A" (-1) 1 1)
      ⟨"late", "Late", "A", 60, 7, -1, true, "", ""⟩ (by simp)
      (by simp [generateOne_late_eval])⟩

/-! ### Claim C3: session-duration split -/

/-- C3 counterexample: for `effort_hours = 33/32` (the float `1.03125`,
exact in binary) and one session, the code floors `61.875` to a single
61-minute session, but `round(effort_hours*60) = 62`: the source never
rounds, so the claimed total fails. -/
theorem session_sum_round_cex :
    ((generateOne (mkTask "t" "T" "C" 0 (33/32) 1) 0).map (·.duration_minutes)).sum = 61 ∧
    round ((33/32 : ℚ) * 60) = 62 ∧
    ((generateOne (mkTask "t" "T" "C" 0 (33/32) 1) 0).map (·.duration_minutes)).sum ≠
      round ((33/32 : ℚ) * 60) := by
  have h1 : ((generateOne (mkTask "t" "T" "C" 0 (33/32) 1) 0).map (·.duration_minutes)).sum
      = (61 : ℤ) := by
    rw [generateOne_sum]
    norm_num [mkTask]
  have h2 : round ((33/32 : ℚ) * 60) = (62 : ℤ) := by
    rw [round_eq]
    norm_num
  exact ⟨h1, h2, by rw [h1, h2]; decide⟩

/-- C3 amended: with `total = effort_hours * 60` computed exactly, each of
the `n = session_count` sessions has duration `⌊total / n⌋`, plus one extra
minute for the first `⌊total⌋ - n * ⌊total / n⌋` sessions; hence the
durations sum to `⌊effort_hours * 60⌋` (the floor — the source never
rounds) and no two sessions of the task differ by more than one minute. -/
theorem session_split_spec (row : Task) (cd : ℤ)
    (he : 0 < row.time_spent_hours) (hn : 1 ≤ row.sessions_needed) :
    ((generateOne row cd).map (·.duration_minutes)).sum = ⌊row.time_spent_hours * 60⌋ ∧
    (generateOne row cd).length = row.sessions_needed.toNat ∧
    (∀ i, ∀ hi : i < (generateOne row cd).length,
        ((generateOne row cd).get ⟨i, hi⟩).duration_minutes =
          ⌊row.time_spent_hours * 60 / ((row.sessions_needed : ℤ) : ℚ)⌋ +
            (if (i : ℤ) < ⌊row.time_spent_hours * 60⌋ -
                row.sessions_needed *
                  ⌊row.time_spent_hours * 60 / ((row.sessions_needed : ℤ) : ℚ)⌋
              then 1 else 0)) ∧
    (∀ s1 ∈ generateOne row cd, ∀ s2 ∈ generateOne row cd,
        s1.duration_minutes - s2.duration_minutes ≤ 1) := by
  have hmax : max 1 row.sessions_needed = row.sessions_needed := max_eq_right hn
  refine ⟨generateOne_sum row cd, ?_, ?_, ?_⟩
  · rw [generateOne_length, hmax]
  · intro i hi
    have := generateOne_get row cd i hi
    rwa [hmax] at this
  · intro s1 h1 s2 h2
    rcases generateOne_dur_cases row cd s1 h1 with d1 | d1 <;>
      rcases generateOne_dur_cases row cd s2 h2 with d2 | d2 <;> omega

/-- Witness for C3 at a concrete two-session task. -/
theorem session_split_spec_witness :
    ((0 : ℚ) < 1 ∧ (1 : ℤ) ≤ 2) ∧
    (((generateOne (mkTask "w" "W" "C" 0 1 2) 0).map (·.duration_minutes)).sum =
        ⌊(mkTask "w" "W" "C" 0 1 2).time_spent_hours * 60⌋ ∧
      (generateOne (mkTask "w" "W" "C" 0 1 2) 0).length =
        (mkTask "w" "W" "C" 0 1 2).sessions_needed.toNat ∧
      (∀ i, ∀ hi : i < (generateOne (mkTask "w" "W" "C" 0 1 2) 0).length,
          ((generateOne (mkTask "w" "W" "C" 0 1 2) 0).get ⟨i, hi⟩).duration_minutes =
            ⌊(mkTask "w" "W" "C" 0 1 2).time_spent_hours * 60 /
                (((mkTask "w" "W" "C" 0 1 2).sessions_needed : ℤ) : ℚ)⌋ +
              (if (i : ℤ) < ⌊(mkTask "w" "W" "C" 0 1 2).time_spent_hours * 60⌋ -
                  (mkTask "w" "W" "C" 0 1 2).sessions_needed *
                    ⌊(mkTask "w" "W" "C" 0 1 2).time_spent_hours * 60 /
                      (((mkTask "w" "W" "C" 0 1 2).sessions_needed : ℤ) : ℚ)⌋
                then 1 else 0)) ∧
      (∀ s1 ∈ generateOne (mkTask "w" "W" "C" 0 1 2) 0,
        ∀ s2 ∈ generateOne (mkTask "w" "W" "C" 0 1 2) 0,
          s1.duration_minutes - s2.duration_minutes ≤ 1)) :=
  ⟨⟨by norm_num, by norm_num⟩,
    session_split_spec (mkTask "w" "W" "C" 0 1 2) 0 (by norm_num [mkTask]) (by norm_num [mkTask])⟩

/-! ### Claim C6: defensive clamping of invalid task fields -/

/-- C6 counterexample: a task with `effort_hours = 1/4 < 1/2` keeps its
effort unchanged through parsing and yields one 15-minute session, whereas
the claimed raise to `0.5` would yield 30 minutes: no effort clamp exists
in `calendar_maker.py`. -/
theorem no_effort_clamp_cex :
    (parse_assignments
          [⟨some "t", some "T", some "C", some 0, some (1/4), some 1, none, none, none⟩]).map
        (·.time_spent_hours) = [1/4] ∧
    ((generate_sessions_from_assignments
          (parse_assignments
            [⟨some "t", some "T", some "C", some 0, some (1/4), some 1, none, none, none⟩]) 0).map
        (·.duration_minutes)) = [15] ∧
    ((generate_sessions_from_assignments [mkTask "t" "T" "C" 0 (1/2) 1] 0).map
        (·.duration_minutes)) = [30] ∧ (15 : ℤ) ≠ 30 := by
  have hC : ("C" = "General") = False := by simp
  have hparse : parse_assignments
      [⟨some "t", some "T", some "C", some 0, some (1/4), some 1, none, none, none⟩] =
      [mkTask "t" "T" "C" 0 (1/4) 1] := by
    norm_num [parse_assignments, truncQ, mkTask, List.filterMap_cons]
  refine ⟨by rw [hparse]; simp [mkTask], ?_, ?_, by decide⟩
  · rw [hparse]
    norm_num [generate_sessions_from_assignments, sortBy, insertBy, generateOne, mkTask,
      truncQ, dateOf, List.range_succ, hC]
  · norm_num [generate_sessions_from_assignments, sortBy, insertBy, generateOne, mkTask,
      truncQ, dateOf, List.range_succ, hC]

/-- C6 amended: `session_count` below 1 is raised to 1 (`max(1, int(...))`)
and the task always yields that many (hence at least one) sessions, but
`effort_hours` is used as-is — the sessions total `⌊effort_hours * 60⌋`
minutes whatever the effort, with no raise to `0.5`. -/
theorem task_never_dropped (row : Task) (cd : ℤ) :
    (generateOne row cd).length = (max 1 row.sessions_needed).toNat ∧
    1 ≤ (generateOne row cd).length ∧
    ((generateOne row cd).map (·.duration_minutes)).sum = ⌊row.time_spent_hours * 60⌋ := by
  refine ⟨generateOne_length row cd, ?_, generateOne_sum row cd⟩
  rw [generateOne_length]
  omega

/-! ### Claim C5: work-window normalization never raises -/

/-- C5 counterexample: on the unparsable clock string `"nine"`,
`float(ww.get("weekday_start_hour", 9))` raises `ValueError` (modelled by
`none`) instead of falling back to the default: the `.get` default only
covers a *missing* key. -/
theorem work_window_raise_cex :
    parse_work_windows ⟨some (JVal.str "nine"), none, none, none⟩ = none := by
  rfl

/-- C5 amended: for preferences whose clock fields are each missing or
parsable, the normalizer yields the corresponding windows, and missing
fields take the documented defaults 09:00–21:00 / 10:00–20:00; an
unparsable string, however, raises (see the counterexample). -/
theorem work_window_fallback (p : WorkPrefs) (q1 q2 q3 q4 : ℚ)
    (h1 : pyFloatD p.weekday_start_hour 9 = some q1)
    (h2 : pyFloatD p.weekday_end_hour 21 = some q2)
    (h3 : pyFloatD p.weekend_start_hour 10 = some q3)
    (h4 : pyFloatD p.weekend_end_hour 20 = some q4) :
    parse_work_windows p = some ⟨(q1, q2), (q3, q4)⟩ ∧
    parse_work_windows ⟨none, none, none, none⟩ = some ⟨(9, 21), (10, 20)⟩ := by
  constructor
  · simp [parse_work_windows, h1, h2, h3, h4]
  · rfl

/-- Witness for C5 at the all-defaults preferences. -/
theorem work_window_fallback_witness :
    (pyFloatD (none : Option JVal) 9 = some 9 ∧
      pyFloatD (none : Option JVal) 21 = some 21 ∧
      pyFloatD (none : Option JVal) 10 = some 10 ∧
      pyFloatD (none : Option JVal) 20 = some 20) ∧
    (parse_work_windows ⟨none, none, none, none⟩ = some ⟨(9, 21), (10, 20)⟩ ∧
      parse_work_windows ⟨none, none, none, none⟩ = some ⟨(9, 21), (10, 20)⟩) :=
  ⟨⟨rfl, rfl, rfl, rfl⟩,
    work_window_fallback ⟨none, none, none, none⟩ 9 21 10 20 rfl rfl rfl rfl⟩

/-! ### Claim C1: ordering of the generated sessions -/

/-- C1 counterexample: with one overdue and one future task, the sort key
`(is_overdue, full_due_dt)` orders `False` before `True`, so the
*non-overdue* session comes first — the overdue session is processed
last, not first. -/
theorem overdue_order_cex :
    ¬ (generate_sessions_from_assignments
        [mkTask "late" "Late" "A" (-14400) 1 1, mkTask "ok" "Ok" "B" 1500 1 1] 0).Pairwise
        (fun a b => a.is_overdue = false → b.is_overdue = false) := by
  have hA : ("A" = "General") = False := by simp
  have hB : ("B" = "General") = False := by simp
  have hov : (generate_sessions_from_assignments
      [mkTask "late" "Late" "A" (-14400) 1 1, mkTask "ok" "Ok" "B" 1500 1 1] 0).map
        (·.is_overdue) = [false, true] := by
    norm_num [generate_sessions_from_assignments, sortBy, insertBy, ltSessKey, generateOne,
      mkTask, truncQ, dateOf, List.range_succ, hA, hB]
  intro hp
  cases hl : generate_sessions_from_assignments
      [mkTask "late" "Late" "A" (-14400) 1 1, mkTask "ok" "Ok" "B" 1500 1 1] 0 with
  | nil => rw [hl] at hov; simp at hov
  | cons a t =>
    cases t with
    | nil => rw [hl] at hov; simp at hov
    | cons b t2 =>
      rw [hl] at hov hp
      simp only [List.map_cons, List.cons.injEq] at hov
      rw [List.pairwise_cons] at hp
      have := hp.1 b (by simp) hov.1
      rw [hov.2.1] at this
      exact absurd this (by simp)

theorem tryDates_session (maxM : ℤ) (brk : ℚ) (enf : Bool) (s : SessionR) :
    ∀ (dates : List ℤ) (st : SState) (p : Placed) (st' : SState),
      tryDates maxM brk enf s st dates = some (p, st') → p.session = s := by
  intro dates
  induction dates with
  | nil => intro st p st' h; exact Option.noConfusion h
  | cons d rest ih =>
    intro st p st' h
    rw [tryDates] at h
    by_cases h1 : s.due_date < d
    · rw [if_pos h1] at h; exact Option.noConfusion h
    · rw [if_neg h1] at h
      by_cases h2 : maxM < st.usage d + s.duration_minutes
      · rw [if_pos h2] at h; exact ih st p st' h
      · rw [if_neg h2] at h
        by_cases h3 : enf ∧ s.class_name ∈ st.classes d ∧ s.class_name ≠ "General"
        · rw [if_pos h3] at h; exact ih st p st' h
        · rw [if_neg h3] at h
          cases hp : placeInDay (s.duration_minutes : ℚ) brk (st.blocks d) with
          | none => rw [hp] at h; exact ih st p st' h
          | some r =>
            rw [hp] at h
            have hinj := Option.some.inj h
            rw [Prod.mk.injEq] at hinj
            rw [← hinj.1]

theorem scheduleGo_order (dates : List ℤ) (maxM : ℤ) (brk : ℚ) (enf : Bool) :
    ∀ (sessions : List SessionR) (st : SState),
      ((scheduleGo dates maxM brk enf st sessions).1.map (·.session)).Sublist sessions ∧
      (scheduleGo dates maxM brk enf st sessions).2.1.Sublist sessions := by
  intro sessions
  induction sessions with
  | nil => intro st; simp [scheduleGo]
  | cons s rest ih =>
    intro st
    rw [scheduleGo]
    cases ht : tryDates maxM brk enf s st dates with
    | none =>
      refine ⟨List.Sublist.cons s (ih st).1, List.Sublist.cons₂ s (ih st).2⟩
    | some r =>
      obtain ⟨p, st2⟩ := r
      have hs : p.session = s := tryDates_session maxM brk enf s dates st p st2 ht
      simp only [List.map_cons, hs]
      exact ⟨List.Sublist.cons₂ s (ih st2).1, List.Sublist.cons s (ih st2).2⟩

/-- C1 amended: the generator output is sorted by the key
`(is_overdue, full_due_dt)` with `False < True`: all *non-overdue*
sessions precede all overdue ones, and within each group sessions are in
ascending order of original due timestamp; and this list order is the
scheduler's processing order — both the placed and the leftover sessions
of `schedule_sessions_load_balanced` come out as sublists (order
preserved) of the generated list. -/
theorem generate_sessions_sorted (df : List Task) (cd : ℤ) :
    (generate_sessions_from_assignments df cd).Pairwise
      (fun a b => (a.is_overdue = false ∧ b.is_overdue = true) ∨
        (a.is_overdue = b.is_overdue ∧ a.full_due_dt ≤ b.full_due_dt)) ∧
    (∀ (keys : List ℤ) (st : SState) (cap : ℤ) (brk : ℚ) (e : Bool),
      ((schedule_sessions_load_balanced keys st (generate_sessions_from_assignments df cd)
          cap brk e).1.map (·.session)).Sublist
        (generate_sessions_from_assignments df cd) ∧
      (schedule_sessions_load_balanced keys st (generate_sessions_from_assignments df cd)
          cap brk e).2.1.Sublist (generate_sessions_from_assignments df cd)) := by
  constructor
  · have hasym : ∀ a b : SessionR, ltSessKey a b = true → ltSessKey b a = false := by
      intro a b h
      cases ha : a.is_overdue <;> cases hb : b.is_overdue <;>
        simp [ltSessKey, ha, hb] at h ⊢ <;> linarith
    have hneg : ∀ a b c : SessionR, ltSessKey b a = false → ltSessKey c b = false →
        ltSessKey c a = false := by
      intro a b c h1 h2
      cases ha : a.is_overdue <;> cases hb : b.is_overdue <;> cases hc : c.is_overdue <;>
        simp [ltSessKey, ha, hb, hc] at h1 h2 ⊢ <;> linarith
    have h := sortBy_pairwise ltSessKey hasym hneg ((df.map (generateOne · cd)).flatten)
    refine List.Pairwise.imp ?_ h
    intro a b hab
    cases ha : a.is_overdue <;> cases hb : b.is_overdue <;>
      simp [ltSessKey, ha, hb] at hab ⊢ <;> linarith
  · intro keys st cap brk e
    exact scheduleGo_order (sortBy (fun a b => decide (a < b)) keys) (cap * 60) brk e
      (generate_sessions_from_assignments df cd) st

/-! ### Claim C9: the contiguous-merge step -/

theorem runSummary_cons (h x : OutEntry) (t : List OutEntry) :
    runSummary h (x :: t) =
      runSummary
        { h with stop := x.stop, duration_minutes := h.duration_minutes + x.duration_minutes }
        t := rfl

theorem runSummary_start (t : List OutEntry) :
    ∀ h : OutEntry, (runSummary h t).start = h.start := by
  induction t with
  | nil => intro h; rfl
  | cons x t ih => intro h; rw [runSummary_cons, ih]

theorem runSummary_name (t : List OutEntry) :
    ∀ h : OutEntry, (runSummary h t).assignment_name = h.assignment_name := by
  induction t with
  | nil => intro h; rfl
  | cons x t ih => intro h; rw [runSummary_cons, ih]

theorem mergeContigGo_runs : ∀ (t : List OutEntry) (cur : OutEntry),
    ∃ runs : List (OutEntry × List OutEntry),
      cur :: t = (runs.map fun r => r.1 :: r.2).flatten ∧
      (∀ r ∈ runs, (r.1 :: r.2).Chain' mergeable) ∧
      (mergeContigGo cur t = runs.map fun r => runSummary r.1 r.2) ∧
      ((runs.map fun r => runSummary r.1 r.2).Chain' fun a b => ¬ mergeable a b) := by
  intro t
  induction t with
  | nil =>
    intro cur
    exact ⟨[(cur, [])], by simp, by simp, by simp [mergeContigGo, runSummary], by simp⟩
  | cons nb t ih =>
    intro cur
    by_cases hm : mergeable cur nb
    · obtain ⟨runs, hflat, hchain, hout, hnc⟩ :=
        ih { cur with stop := nb.stop, duration_minutes := cur.duration_minutes + nb.duration_minutes }
      cases runs with
      | nil => simp at hflat
      | cons r rest =>
        obtain ⟨h1, tl1⟩ := r
        simp only [List.map_cons, List.flatten_cons, List.cons_append] at hflat
        have hpair := List.cons.inj hflat
        refine ⟨(cur, nb :: tl1) :: rest, ?_, ?_, ?_, ?_⟩
        · simp only [List.map_cons, List.flatten_cons, List.cons_append]
          rw [hpair.2]
        · intro r hr
          rcases List.mem_cons.1 hr with hr1 | hr2
          · subst hr1
            have hc1 := hchain (h1, tl1) (by simp)
            rw [← hpair.1] at hc1
            rw [List.chain'_cons]
            refine ⟨hm, ?_⟩
            cases tl1 with
            | nil => simp
            | cons x tl2 =>
              rw [List.chain'_cons] at hc1 ⊢
              obtain ⟨⟨hnm, hst⟩, hc2⟩ := hc1
              have hnm2 : cur.assignment_name = x.assignment_name := hnm
              have hst2 : nb.stop = x.start := hst
              exact ⟨⟨by rw [← hm.1]; exact hnm2, hst2⟩, hc2⟩
          · exact hchain r (List.mem_cons_of_mem _ hr2)
        · rw [mergeContigGo, if_pos hm, hout, List.map_cons, List.map_cons, runSummary_cons,
            hpair.1]
        · rw [List.map_cons] at hnc ⊢
          rw [runSummary_cons, hpair.1]
          exact hnc
    · obtain ⟨runs, hflat, hchain, hout, hnc⟩ := ih nb
      refine ⟨(cur, []) :: runs, ?_, ?_, ?_, ?_⟩
      · simp only [List.map_cons, List.flatten_cons, List.singleton_append]
        rw [← hflat]
      · intro r hr
        rcases List.mem_cons.1 hr with hr1 | hr2
        · subst hr1; simp
        · exact hchain r hr2
      · rw [mergeContigGo, if_neg hm, hout, List.map_cons]
        rfl
      · simp only [List.map_cons]
        have hsum : runSummary cur [] = cur := rfl
        rw [hsum]
        cases runs with
        | nil => simp at hflat
        | cons r rest =>
          obtain ⟨h1, tl1⟩ := r
          simp only [List.map_cons, List.flatten_cons, List.cons_append] at hflat
          have hpair := List.cons.inj hflat
          simp only [List.map_cons] at hnc ⊢
          rw [List.chain'_cons]
          refine ⟨?_, hnc⟩
          intro hcontra
          obtain ⟨hnm, hst⟩ := hcontra
          rw [runSummary_name] at hnm
          rw [runSummary_start] at hst
          rw [← hpair.1] at hnm hst
          exact hm ⟨hnm, hst⟩

/-- C9 counterexample: two touching scheduled sessions from *different*
tasks (`assignment_id` "a1" vs "a2") but with the same `assignment_name`
are merged into one interval — the source keys the merge on the name, not
on task identity. -/
theorem merge_name_not_task_cex :
    (merge_contiguous_sessions [mkOut "a1" "HW" 0 60, mkOut "a2" "HW" 60 120]).length = 1 ∧
    (mkOut "a1" "HW" 0 60).assignment_id ≠ (mkOut "a2" "HW" 60 120).assignment_id := by
  constructor
  · norm_num [merge_contiguous_sessions, sortBy, insertBy, mergeContigGo, mergeable, mkOut]
  · simp [mkOut]

/-- C9 amended: over the sessions sorted by start time, the merge step
partitions the list into maximal runs of consecutive entries in which each
entry has the *same assignment name* as, and starts exactly at the end of,
its predecessor; each run becomes one merged interval (head entry, end
pushed to the run's last end, durations summed), and no two consecutive
output entries are mergeable — entries with different names or separated
by a gap (or overlap) are never merged. -/
theorem merge_contiguous_exactly (l : List OutEntry) :
    ∃ runs : List (OutEntry × List OutEntry),
      sortBy (fun a b => decide (a.start < b.start)) l =
        (runs.map fun r => r.1 :: r.2).flatten ∧
      (∀ r ∈ runs, (r.1 :: r.2).Chain' mergeable) ∧
      (merge_contiguous_sessions l = runs.map fun r => runSummary r.1 r.2) ∧
      ((runs.map fun r => runSummary r.1 r.2).Chain' fun a b => ¬ mergeable a b) := by
  cases hs : sortBy (fun a b => decide (a.start < b.start)) l with
  | nil =>
    refine ⟨[], by simp, by simp, ?_, by simp⟩
    unfold merge_contiguous_sessions
    rw [hs]
    simp
  | cons h t =>
    obtain ⟨runs, h1, h2, h3, h4⟩ := mergeContigGo_runs t h
    have hm : merge_contiguous_sessions l = mergeContigGo h t := by
      unfold merge_contiguous_sessions
      rw [hs]
    exact ⟨runs, h1, h2, by rw [hm, h3], h4⟩

/-! ### Claim C10: correctness of `subtract_busy_from_window` -/

theorem pairwise_mem_cases {α : Type} {R : α → α → Prop} :
    ∀ {l : List α}, l.Pairwise R → ∀ {a b : α}, a ∈ l → b ∈ l → a = b ∨ R a b ∨ R b a := by
  intro l
  induction l with
  | nil => intro _ a b ha; simp at ha
  | cons x t ih =>
    intro hp a b ha hb
    rw [List.pairwise_cons] at hp
    rcases List.mem_cons.1 ha with rfl | ha2
    · rcases List.mem_cons.1 hb with rfl | hb2
      · exact Or.inl rfl
      · exact Or.inr (Or.inl (hp.1 b hb2))
    · rcases List.mem_cons.1 hb with rfl | hb2
      · exact Or.inr (Or.inr (hp.1 a ha2))
      · exact ih hp.2 ha2 hb2

theorem clipToWindow_pt (ws we : ℚ) (b : IV) (x : ℚ) (hx1 : ws ≤ x) (hx2 : x < we) :
    (∃ c, clipToWindow ws we b = some c ∧ c.1 ≤ x ∧ x < c.2) ↔ (b.1 ≤ x ∧ x < b.2) := by
  unfold clipToWindow
  by_cases h1 : b.2 ≤ ws ∨ b.1 ≥ we
  · rw [if_pos h1]
    constructor
    · rintro ⟨c, hc, -⟩
      exact Option.noConfusion hc
    · rintro ⟨hb1, hb2⟩
      exfalso
      rcases h1 with h | h
      · linarith
      · linarith
  · rw [if_neg h1]
    by_cases h2 : max b.1 ws < min b.2 we
    · rw [if_pos h2]
      constructor
      · rintro ⟨c, hc, hc1, hc2⟩
        obtain rfl := Option.some.inj hc
        exact ⟨le_trans (le_max_left _ _) hc1, lt_of_lt_of_le hc2 (min_le_left _ _)⟩
      · rintro ⟨hb1, hb2⟩
        exact ⟨(max b.1 ws, min b.2 we), rfl, max_le hb1 hx1, lt_min hb2 hx2⟩
    · rw [if_neg h2]
      constructor
      · rintro ⟨c, hc, -⟩
        exact Option.noConfusion hc
      · rintro ⟨hb1, hb2⟩
        exact absurd (lt_of_le_of_lt (max_le hb1 hx1) (lt_min hb2 hx2)) h2

theorem clipToWindow_bounds (ws we : ℚ) (b c : IV) (h : clipToWindow ws we b = some c) :
    ws ≤ c.1 ∧ c.1 < c.2 ∧ c.2 ≤ we := by
  unfold clipToWindow at h
  by_cases h1 : b.2 ≤ ws ∨ b.1 ≥ we
  · rw [if_pos h1] at h
    exact Option.noConfusion h
  · rw [if_neg h1] at h
    by_cases h2 : max b.1 ws < min b.2 we
    · rw [if_pos h2] at h
      obtain rfl := Option.some.inj h
      exact ⟨le_max_right _ _, h2, min_le_right _ _⟩
    · rw [if_neg h2] at h
      exact Option.noConfusion h

theorem sweepFree_spec (we : ℚ) :
    ∀ (t : List IV) (cur : ℚ),
      t.Pairwise (fun a b => a.1 ≤ b.1) →
      (∀ b ∈ t, b.1 < b.2 ∧ b.2 ≤ we) →
      (∀ iv ∈ sweepFree we cur t, cur ≤ iv.1 ∧ iv.1 < iv.2 ∧ iv.2 ≤ we) ∧
      (sweepFree we cur t).Pairwise (fun a b => a.2 < b.1) ∧
      (∀ x : ℚ, (∃ iv ∈ sweepFree we cur t, iv.1 ≤ x ∧ x < iv.2) ↔
        (cur ≤ x ∧ x < we ∧ ∀ b ∈ t, ¬(b.1 ≤ x ∧ x < b.2))) := by
  intro t
  induction t with
  | nil =>
    intro cur _ _
    refine ⟨?_, ?_, ?_⟩
    · intro iv hiv
      rw [sweepFree] at hiv
      split_ifs at hiv with hc
      · rcases List.mem_singleton.1 hiv with rfl
        exact ⟨le_refl _, hc, le_refl _⟩
      · simp at hiv
    · rw [sweepFree]
      split_ifs <;> simp
    · intro x
      rw [sweepFree]
      split_ifs with hc
      · simp only [List.mem_singleton, List.not_mem_nil, false_and]
        constructor
        · rintro ⟨iv, rfl, h1, h2⟩
          exact ⟨h1, h2, by simp⟩
        · rintro ⟨h1, h2, -⟩
          exact ⟨(cur, we), rfl, h1, h2⟩
      · simp only [List.not_mem_nil, false_and, exists_false, false_iff, not_and]
        intro h1 h2
        exact absurd (lt_of_le_of_lt h1 h2) hc
  | cons b t ih =>
    obtain ⟨s, e⟩ := b
    intro cur hsort hval
    rw [List.pairwise_cons] at hsort
    have hheadval := hval (s, e) (by simp)
    have htval : ∀ b ∈ t, b.1 < b.2 ∧ b.2 ≤ we := fun b hb => hval b (List.mem_cons_of_mem _ hb)
    obtain ⟨ihb, ihp, ihc⟩ := ih (max cur e) hsort.2 htval
    by_cases hc : cur < s
    · rw [sweepFree, if_pos hc]
      refine ⟨?_, ?_, ?_⟩
      · intro iv hiv
        rcases List.mem_cons.1 hiv with rfl | hiv2
        · exact ⟨le_refl _, hc, le_of_lt (lt_of_lt_of_le hheadval.1 hheadval.2)⟩
        · obtain ⟨h1, h2, h3⟩ := ihb iv hiv2
          exact ⟨le_trans (le_max_left _ _) h1, h2, h3⟩
      · rw [List.pairwise_cons]
        refine ⟨?_, ihp⟩
        intro iv hiv
        have := (ihb iv hiv).1
        exact lt_of_lt_of_le hheadval.1 (le_trans (le_max_right _ _) this)
      · intro x
        constructor
        · rintro ⟨iv, hiv, hx1, hx2⟩
          rcases List.mem_cons.1 hiv with rfl | hiv2
          · -- x in the gap (cur, s)
            refine ⟨hx1, lt_of_lt_of_le hx2 (le_of_lt (lt_of_lt_of_le hheadval.1 hheadval.2)), ?_⟩
            intro b hb
            rcases List.mem_cons.1 hb with rfl | hb2
            · intro hcontra; linarith [hcontra.1]
            · intro hcontra
              have := hsort.1 b hb2
              linarith [hcontra.1]
          · obtain ⟨hy1, hy2, hy3⟩ := (ihc x).1 ⟨iv, hiv2, hx1, hx2⟩
            refine ⟨le_trans (le_max_left _ _) hy1, hy2, ?_⟩
            intro b hb
            rcases List.mem_cons.1 hb with rfl | hb2
            · intro hcontra
              have : e ≤ x := le_trans (le_max_right _ _) hy1
              linarith [hcontra.2]
            · exact hy3 b hb2
        · rintro ⟨hx1, hx2, hx3⟩
          by_cases hxs : x < s
          · exact ⟨(cur, s), by simp, hx1, hxs⟩
          · push_neg at hxs
            have hxe : e ≤ x := by
              by_contra hxe
              push_neg at hxe
              exact hx3 (s, e) (by simp) ⟨hxs, hxe⟩
            obtain ⟨iv, hiv, hz1, hz2⟩ := (ihc x).2
              ⟨max_le hx1 hxe, hx2, fun b hb => hx3 b (List.mem_cons_of_mem _ hb)⟩
            exact ⟨iv, List.mem_cons_of_mem _ hiv, hz1, hz2⟩
    · rw [sweepFree, if_neg hc]
      push_neg at hc
      refine ⟨?_, ihp, ?_⟩
      · intro iv hiv
        obtain ⟨h1, h2, h3⟩ := ihb iv hiv
        exact ⟨le_trans (le_max_left _ _) h1, h2, h3⟩
      · intro x
        rw [ihc x]
        constructor
        · rintro ⟨hx1, hx2, hx3⟩
          refine ⟨le_trans (le_max_left _ _) hx1, hx2, ?_⟩
          intro b hb
          rcases List.mem_cons.1 hb with rfl | hb2
          · intro hcontra
            have : e ≤ x := le_trans (le_max_right _ _) hx1
            linarith [hcontra.2]
          · exact hx3 b hb2
        · rintro ⟨hx1, hx2, hx3⟩
          have hxs : s ≤ x := le_trans hc hx1
          have hxe : e ≤ x := by
            by_contra hxe
            push_neg at hxe
            exact hx3 (s, e) (by simp) ⟨hxs, hxe⟩
          exact ⟨max_le hx1 hxe, hx2, fun b hb => hx3 b (List.mem_cons_of_mem _ hb)⟩

/-- C10: for any window `[ws, we)` and any busy list — unsorted, possibly
overlapping or reaching beyond the window — the result is the ordered,
pairwise-disjoint list of the maximal busy-free sub-intervals of the
window: each entry is a nonempty sub-interval of the window, consecutive
entries are strictly separated, the entries cover exactly the busy-free
points of the window, no entry can be extended right or left (its right
endpoint is not free, and any left extension contains a non-free point),
and in particular the empty busy list yields `[(ws, we)]` while a busy
interval covering the whole window yields `[]`. -/
theorem subtract_busy_correct (ws we : ℚ) (busy : List IV) (hwin : ws < we) :
    (∀ iv ∈ subtract_busy_from_window ws we busy, ws ≤ iv.1 ∧ iv.1 < iv.2 ∧ iv.2 ≤ we) ∧
    (subtract_busy_from_window ws we busy).Pairwise (fun a b => a.2 < b.1) ∧
    (∀ x : ℚ, (∃ iv ∈ subtract_busy_from_window ws we busy, iv.1 ≤ x ∧ x < iv.2) ↔
      freePt ws we busy x) ∧
    (∀ iv ∈ subtract_busy_from_window ws we busy, ¬ freePt ws we busy iv.2) ∧
    (∀ iv ∈ subtract_busy_from_window ws we busy, ∀ y, y < iv.1 →
      ∃ x, y ≤ x ∧ x < iv.1 ∧ ¬ freePt ws we busy x) ∧
    subtract_busy_from_window ws we [] = [(ws, we)] ∧
    subtract_busy_from_window ws we [(ws, we)] = [] := by
  have hasym : ∀ a b : IV, ltStart a b = true → ltStart b a = false := by
    intro a b h
    simp only [ltStart, decide_eq_true_eq] at h
    simp only [ltStart, decide_eq_false_iff_not, not_lt]
    linarith
  have hneg : ∀ a b c : IV, ltStart b a = false → ltStart c b = false →
      ltStart c a = false := by
    intro a b c h1 h2
    simp only [ltStart, decide_eq_false_iff_not, not_lt] at h1 h2 ⊢
    linarith
  have hperm : (sortBy ltStart (busy.filterMap (clipToWindow ws we))).Perm
      (busy.filterMap (clipToWindow ws we)) := sortBy_perm _ _
  have hsort2 : (sortBy ltStart (busy.filterMap (clipToWindow ws we))).Pairwise
      (fun a b : IV => a.1 ≤ b.1) := by
    refine (sortBy_pairwise ltStart hasym hneg _).imp ?_
    intro a b h
    simp only [ltStart, decide_eq_false_iff_not, not_lt] at h
    exact h
  have hval : ∀ b ∈ sortBy ltStart (busy.filterMap (clipToWindow ws we)),
      b.1 < b.2 ∧ b.2 ≤ we := by
    intro b hb
    obtain ⟨a, ha, hca⟩ := List.mem_filterMap.1 (hperm.mem_iff.1 hb)
    obtain ⟨-, h2, h3⟩ := clipToWindow_bounds ws we a b hca
    exact ⟨h2, h3⟩
  obtain ⟨hbounds, hpair, hcover⟩ :=
    sweepFree_spec we (sortBy ltStart (busy.filterMap (clipToWindow ws we))) ws hsort2 hval
  have hsub : subtract_busy_from_window ws we busy =
      sweepFree we ws (sortBy ltStart (busy.filterMap (clipToWindow ws we))) := rfl
  have hcover2 : ∀ x : ℚ,
      (∃ iv ∈ subtract_busy_from_window ws we busy, iv.1 ≤ x ∧ x < iv.2) ↔
        freePt ws we busy x := by
    intro x
    rw [hsub, hcover x]
    unfold freePt
    constructor
    · rintro ⟨h1, h2, h3⟩
      refine ⟨h1, h2, ?_⟩
      intro b hb hcontra
      obtain ⟨c, hc, hc1, hc2⟩ := (clipToWindow_pt ws we b x h1 h2).2 hcontra
      exact h3 c (hperm.mem_iff.2 (List.mem_filterMap.2 ⟨b, hb, hc⟩)) ⟨hc1, hc2⟩
    · rintro ⟨h1, h2, h3⟩
      refine ⟨h1, h2, ?_⟩
      intro c hc hcontra
      obtain ⟨b, hb, hcb⟩ := List.mem_filterMap.1 (hperm.mem_iff.1 hc)
      exact h3 b hb ((clipToWindow_pt ws we b x h1 h2).1 ⟨c, hcb, hcontra.1, hcontra.2⟩)
  rw [hsub] at hcover2 ⊢
  refine ⟨hbounds, hpair, hcover2, ?_, ?_, ?_, ?_⟩
  · intro iv hiv hfree
    obtain ⟨jv, hjv, hj1, hj2⟩ := (hcover2 iv.2).2 hfree
    rcases pairwise_mem_cases hpair hiv hjv with rfl | hr | hr
    · exact absurd hj2 (lt_irrefl _)
    · linarith
    · have hb := (hbounds iv hiv).2.1
      linarith
  · intro iv hiv y hy
    by_cases hyw : y < ws
    · exact ⟨y, le_refl _, hy, fun hf => absurd hf.1 (not_le.2 hyw)⟩
    · push_neg at hyw
      by_contra hcon
      push_neg at hcon
      have hfy : freePt ws we busy y := hcon y (le_refl _) hy
      obtain ⟨c, hc, hc1, hc2⟩ := (hcover2 y).2 hfy
      rcases pairwise_mem_cases hpair hiv hc with rfl | hr | hr
      · exact absurd hy (not_lt.2 hc1)
      · have hb := (hbounds iv hiv).2.1
        linarith
      · have hfd : freePt ws we busy c.2 := hcon c.2 (le_of_lt hc2) hr
        obtain ⟨c2, hcc2, hd1, hd2⟩ := (hcover2 c.2).2 hfd
        rcases pairwise_mem_cases hpair hc hcc2 with rfl | hr2 | hr2
        · exact absurd hd2 (lt_irrefl _)
        · linarith
        · linarith
  · unfold subtract_busy_from_window
    simp only [List.filterMap_nil, sortBy, sweepFree, if_pos hwin]
  · unfold subtract_busy_from_window
    have hclip : clipToWindow ws we (ws, we) = some (ws, we) := by
      unfold clipToWindow
      rw [if_neg, if_pos]
      · simp
      · simp only [max_self, min_self]
        exact hwin
      · push_neg
        exact ⟨hwin, hwin⟩
    rw [List.filterMap_cons, hclip]
    simp only [List.filterMap_nil]
    have hsort1 : sortBy ltStart [((ws, we) : IV)] = [(ws, we)] := rfl
    rw [hsort1, sweepFree, if_neg (lt_irrefl ws), sweepFree]
    rw [max_eq_right (le_of_lt hwin), if_neg (lt_irrefl we)]

/-- Witness for C10 at the window `[0, 10)` with one busy interval
`[2, 4)`. -/
theorem subtract_busy_correct_witness :
    (0 : ℚ) < 10 ∧
    ((∀ iv ∈ subtract_busy_from_window 0 10 [(2, 4)], (0:ℚ) ≤ iv.1 ∧ iv.1 < iv.2 ∧ iv.2 ≤ 10) ∧
      (subtract_busy_from_window 0 10 [(2, 4)]).Pairwise (fun a b => a.2 < b.1) ∧
      (∀ x : ℚ, (∃ iv ∈ subtract_busy_from_window 0 10 [(2, 4)], iv.1 ≤ x ∧ x < iv.2) ↔
        freePt 0 10 [(2, 4)] x) ∧
      (∀ iv ∈ subtract_busy_from_window 0 10 [(2, 4)], ¬ freePt 0 10 [(2, 4)] iv.2) ∧
      (∀ iv ∈ subtract_busy_from_window 0 10 [(2, 4)], ∀ y, y < iv.1 →
        ∃ x, y ≤ x ∧ x < iv.1 ∧ ¬ freePt 0 10 [(2, 4)] x) ∧
      subtract_busy_from_window 0 10 [] = [(0, 10)] ∧
      subtract_busy_from_window 0 10 [((0 : ℚ), (10 : ℚ))] = []) :=
  ⟨by norm_num, subtract_busy_correct 0 10 [(2, 4)] (by norm_num)⟩

/-! ### Claim C8: `merge_busy_blocks` idempotence and order-independence -/

theorem mergeGo_true_cons (cs ce s e : ℚ) (t : List IV) :
    mergeGo true cs ce ((s, e) :: t) =
      if s ≤ ce then mergeGo true cs (max ce e) t else (cs, ce) :: mergeGo true s e t := by
  rw [mergeGo]
  by_cases h : s ≤ ce <;> simp [h]

theorem merge_runMerge (X : List IV) :
    merge_busy_blocks X true = runMerge (sortBy ltStart X) := by
  unfold merge_busy_blocks runMerge
  cases sortBy ltStart X with
  | nil => rfl
  | cons b t => obtain ⟨s, e⟩ := b; rfl

theorem mergeGo_swap (cs ce s e1 e2 : ℚ) (t : List IV) (h1 : s ≤ e1) (h2 : s ≤ e2) :
    mergeGo true cs ce ((s, e1) :: (s, e2) :: t) =
      mergeGo true cs ce ((s, e2) :: (s, e1) :: t) := by
  by_cases hc : s ≤ ce
  · rw [mergeGo_true_cons, if_pos hc, mergeGo_true_cons, if_pos (le_trans hc (le_max_left _ _)),
      mergeGo_true_cons, if_pos hc, mergeGo_true_cons, if_pos (le_trans hc (le_max_left _ _))]
    congr 1
    rw [max_assoc, max_assoc, max_comm e1 e2]
  · rw [mergeGo_true_cons, if_neg hc, mergeGo_true_cons, if_pos h1,
      mergeGo_true_cons, if_neg hc, mergeGo_true_cons, if_pos h2, max_comm e1 e2]

theorem lexLt_false_iff (a b : IV) :
    lexLt b a = false ↔ (a.1 < b.1 ∨ (a.1 = b.1 ∧ a.2 ≤ b.2)) := by
  simp only [lexLt, decide_eq_false_iff_not, not_or, not_and, not_lt]
  constructor
  · rintro ⟨h1, h2⟩
    rcases lt_or_eq_of_le h1 with h | h
    · exact Or.inl h
    · exact Or.inr ⟨h, h2 h.symm⟩
  · rintro (h | ⟨h1, h2⟩)
    · exact ⟨le_of_lt h, fun he => absurd (he ▸ h) (lt_irrefl _)⟩
    · exact ⟨le_of_eq h1, fun _ => h2⟩

theorem mergeGo_insert (s e : ℚ) (hse : s ≤ e) :
    ∀ (t : List IV), t.Pairwise (fun a b => lexLt b a = false) →
      (∀ b ∈ t, s ≤ b.1 ∧ b.1 ≤ b.2) →
      ∀ cs ce, mergeGo true cs ce ((s, e) :: t) =
        mergeGo true cs ce (insertBy lexLt (s, e) t) := by
  intro t
  induction t with
  | nil => intro _ _ cs ce; rfl
  | cons b t ih =>
    obtain ⟨s2, e2⟩ := b
    intro hsorted hb cs ce
    rw [List.pairwise_cons] at hsorted
    by_cases hlt : lexLt (s2, e2) (s, e)
    · have hs2 : s2 = s := by
        have hle := (hb (s2, e2) (by simp)).1
        simp only [lexLt, decide_eq_true_eq] at hlt
        rcases hlt with h | ⟨h, -⟩
        · exact absurd h (not_lt.2 hle)
        · exact h
      subst hs2
      rw [insertBy, if_pos hlt]
      have he2 : s2 ≤ e2 := (hb (s2, e2) (by simp)).2
      rw [mergeGo_swap cs ce s2 e e2 t hse he2]
      have hbt : ∀ b ∈ t, s2 ≤ b.1 ∧ b.1 ≤ b.2 :=
        fun b hbmem => hb b (List.mem_cons_of_mem _ hbmem)
      by_cases h : s2 ≤ ce
      · have hL : mergeGo true cs ce ((s2, e2) :: (s2, e) :: t) =
            mergeGo true cs (max ce e2) ((s2, e) :: t) := by
          rw [mergeGo_true_cons, if_pos h]
        have hR : mergeGo true cs ce ((s2, e2) :: insertBy lexLt (s2, e) t) =
            mergeGo true cs (max ce e2) (insertBy lexLt (s2, e) t) := by
          rw [mergeGo_true_cons, if_pos h]
        rw [hL, hR]
        exact ih hsorted.2 hbt cs (max ce e2)
      · have hL : mergeGo true cs ce ((s2, e2) :: (s2, e) :: t) =
            (cs, ce) :: mergeGo true s2 e2 ((s2, e) :: t) := by
          rw [mergeGo_true_cons, if_neg h]
        have hR : mergeGo true cs ce ((s2, e2) :: insertBy lexLt (s2, e) t) =
            (cs, ce) :: mergeGo true s2 e2 (insertBy lexLt (s2, e) t) := by
          rw [mergeGo_true_cons, if_neg h]
        rw [hL, hR, ih hsorted.2 hbt s2 e2]
    · rw [insertBy, if_neg hlt]

theorem lexLt_asym : ∀ a b : IV, lexLt a b = true → lexLt b a = false := by
  intro a b h
  simp only [lexLt, decide_eq_true_eq] at h
  rw [lexLt_false_iff]
  rcases h with h | ⟨h1, h2⟩
  · exact Or.inl h
  · exact Or.inr ⟨h1, le_of_lt h2⟩

theorem lexLt_negtrans : ∀ a b c : IV, lexLt b a = false → lexLt c b = false →
    lexLt c a = false := by
  intro a b c h1 h2
  rw [lexLt_false_iff] at h1 h2 ⊢
  rcases h1 with h1 | ⟨h1a, h1b⟩
  · rcases h2 with h2 | ⟨h2a, h2b⟩
    · exact Or.inl (lt_trans h1 h2)
    · exact Or.inl (h2a ▸ h1)
  · rcases h2 with h2 | ⟨h2a, h2b⟩
    · exact Or.inl (h1a ▸ h2)
    · exact Or.inr ⟨h1a.trans h2a, le_trans h1b h2b⟩

theorem mergeGo_lexSort : ∀ (t : List IV), t.Pairwise (fun a b : IV => a.1 ≤ b.1) →
    (∀ b ∈ t, b.1 ≤ b.2) →
    ∀ cs ce, mergeGo true cs ce t = mergeGo true cs ce (sortBy lexLt t) := by
  intro t
  induction t with
  | nil => intro _ _ cs ce; rfl
  | cons b t ih =>
    obtain ⟨s, e⟩ := b
    intro hsorted hval cs ce
    rw [List.pairwise_cons] at hsorted
    have hlexsorted : (sortBy lexLt t).Pairwise (fun a b => lexLt b a = false) :=
      sortBy_pairwise lexLt lexLt_asym lexLt_negtrans t
    have hmem : ∀ b ∈ sortBy lexLt t, s ≤ b.1 ∧ b.1 ≤ b.2 := by
      intro b hbmem
      have hb2 := (sortBy_perm lexLt t).mem_iff.1 hbmem
      exact ⟨hsorted.1 b hb2, hval b (List.mem_cons_of_mem _ hb2)⟩
    have hse : s ≤ e := hval (s, e) (by simp)
    rw [sortBy, ← mergeGo_insert s e hse (sortBy lexLt t) hlexsorted hmem cs ce]
    have htval : ∀ b ∈ t, b.1 ≤ b.2 := fun b hbmem => hval b (List.mem_cons_of_mem _ hbmem)
    by_cases h : s ≤ ce
    · rw [mergeGo_true_cons, if_pos h, mergeGo_true_cons, if_pos h]
      exact ih hsorted.2 htval cs (max ce e)
    · rw [mergeGo_true_cons, if_neg h, mergeGo_true_cons, if_neg h]
      rw [ih hsorted.2 htval s e]

theorem runMerge_insert (s e : ℚ) (hse : s ≤ e) (u : List IV)
    (hsorted : u.Pairwise (fun a b => lexLt b a = false))
    (hb : ∀ b ∈ u, s ≤ b.1 ∧ b.1 ≤ b.2) :
    runMerge ((s, e) :: u) = runMerge (insertBy lexLt (s, e) u) := by
  cases u with
  | nil => rfl
  | cons b u2 =>
    obtain ⟨s2, e2⟩ := b
    rw [List.pairwise_cons] at hsorted
    by_cases hlt : lexLt (s2, e2) (s, e)
    · have hs2 : s2 = s := by
        have hle := (hb (s2, e2) (by simp)).1
        simp only [lexLt, decide_eq_true_eq] at hlt
        rcases hlt with h | ⟨h, -⟩
        · exact absurd h (not_lt.2 hle)
        · exact h
      subst hs2
      rw [insertBy, if_pos hlt]
      have he2 : s2 ≤ e2 := (hb (s2, e2) (by simp)).2
      have hbt : ∀ b ∈ u2, s2 ≤ b.1 ∧ b.1 ≤ b.2 :=
        fun b hbmem => hb b (List.mem_cons_of_mem _ hbmem)
      show mergeGo true s2 e ((s2, e2) :: u2) = mergeGo true s2 e2 (insertBy lexLt (s2, e) u2)
      rw [← mergeGo_insert s2 e hse u2 hsorted.2 hbt s2 e2]
      rw [mergeGo_true_cons, if_pos hse, mergeGo_true_cons, if_pos he2, max_comm e e2]
    · rw [insertBy, if_neg hlt]

theorem runMerge_lexSort (l : List IV) (hsorted : l.Pairwise (fun a b : IV => a.1 ≤ b.1))
    (hval : ∀ b ∈ l, b.1 ≤ b.2) :
    runMerge l = runMerge (sortBy lexLt l) := by
  cases l with
  | nil => rfl
  | cons b t =>
    obtain ⟨s, e⟩ := b
    rw [List.pairwise_cons] at hsorted
    have hlexsorted : (sortBy lexLt t).Pairwise (fun a b => lexLt b a = false) :=
      sortBy_pairwise lexLt lexLt_asym lexLt_negtrans t
    have hmem : ∀ b ∈ sortBy lexLt t, s ≤ b.1 ∧ b.1 ≤ b.2 := by
      intro b hbmem
      have hb2 := (sortBy_perm lexLt t).mem_iff.1 hbmem
      exact ⟨hsorted.1 b hb2, hval b (List.mem_cons_of_mem _ hb2)⟩
    have hse : s ≤ e := hval (s, e) (by simp)
    have htval : ∀ b ∈ t, b.1 ≤ b.2 := fun b hbmem => hval b (List.mem_cons_of_mem _ hbmem)
    rw [sortBy, ← runMerge_insert s e hse (sortBy lexLt t) hlexsorted hmem]
    show mergeGo true s e t = mergeGo true s e (sortBy lexLt t)
    exact mergeGo_lexSort t hsorted.2 htval s e

theorem mergeGo_head : ∀ (t : List IV) (cs ce : ℚ),
    ∃ e0 r, mergeGo true cs ce t = (cs, e0) :: r := by
  intro t
  induction t with
  | nil => intro cs ce; exact ⟨ce, [], rfl⟩
  | cons b t ih =>
    obtain ⟨s, e⟩ := b
    intro cs ce
    rw [mergeGo_true_cons]
    by_cases h : s ≤ ce
    · rw [if_pos h]; exact ih cs (max ce e)
    · rw [if_neg h]; exact ⟨ce, mergeGo true s e t, rfl⟩

theorem mergeGo_invariants : ∀ (t : List IV) (cs ce : ℚ),
    (∀ b ∈ t, cs ≤ b.1) → t.Pairwise (fun a b : IV => a.1 ≤ b.1) →
    (mergeGo true cs ce t).Chain' (fun a b : IV => a.2 < b.1) ∧
    (∀ iv ∈ mergeGo true cs ce t, cs ≤ iv.1) ∧
    (mergeGo true cs ce t).Pairwise (fun a b : IV => a.1 ≤ b.1) := by
  intro t
  induction t with
  | nil =>
    intro cs ce _ _
    refine ⟨?_, ?_, ?_⟩ <;> simp [mergeGo]
  | cons b t ih =>
    obtain ⟨s, e⟩ := b
    intro cs ce hmem hsorted
    rw [List.pairwise_cons] at hsorted
    rw [mergeGo_true_cons]
    by_cases h : s ≤ ce
    · rw [if_pos h]
      exact ih cs (max ce e) (fun b hb => hmem b (List.mem_cons_of_mem _ hb)) hsorted.2
    · rw [if_neg h]
      push_neg at h
      have hcs_s : cs ≤ s := hmem (s, e) (by simp)
      obtain ⟨ihchain, ihmem, ihsorted⟩ := ih s e (fun b hb => hsorted.1 b hb) hsorted.2
      refine ⟨?_, ?_, ?_⟩
      · obtain ⟨e0, r, hr⟩ := mergeGo_head t s e
        rw [hr]
        rw [hr] at ihchain
        exact List.Chain'.cons h ihchain
      · intro iv hiv
        rcases List.mem_cons.1 hiv with rfl | hiv2
        · exact le_refl _
        · exact le_trans hcs_s (ihmem iv hiv2)
      · rw [List.pairwise_cons]
        exact ⟨fun iv hiv => le_trans hcs_s (ihmem iv hiv), ihsorted⟩

theorem mergeGo_gapped : ∀ (t : List IV) (cs ce : ℚ),
    ((cs, ce) :: t).Chain' (fun a b : IV => a.2 < b.1) →
    mergeGo true cs ce t = (cs, ce) :: t := by
  intro t
  induction t with
  | nil => intro cs ce _; rfl
  | cons b t ih =>
    obtain ⟨s, e⟩ := b
    intro cs ce hchain
    rw [List.chain'_cons] at hchain
    rw [mergeGo_true_cons, if_neg (not_le.2 hchain.1)]
    rw [ih s e hchain.2]

/-- C8 counterexample: with an inverted interval (end before start) in the
list, `merge_busy_blocks` is order-dependent — the two orders of
`(0, -5)` and `(0, 3)` give different results, although the lists are
permutations of one another. -/
theorem merge_order_cex :
    merge_busy_blocks [((0 : ℚ), 3), (0, -5)] true ≠
      merge_busy_blocks [((0 : ℚ), -5), (0, 3)] true ∧
    ([((0 : ℚ), 3), (0, -5)] : List IV).Perm [((0 : ℚ), -5), (0, 3)] := by
  constructor
  · decide
  · exact List.Perm.swap _ _ _

/-- C8 amended: `merge_busy_blocks` with `join_touching` is idempotent on
every input, and order-independent on every list of well-formed intervals
(`start ≤ end`): permuting the input does not change the result.  (With an
inverted interval in the list, order-independence fails — see the
counterexample.) -/
theorem merge_idem_and_order :
    (∀ Z : List IV, merge_busy_blocks (merge_busy_blocks Z true) true =
      merge_busy_blocks Z true) ∧
    (∀ X Y : List IV, X.Perm Y → (∀ b ∈ X, b.1 ≤ b.2) →
      merge_busy_blocks X true = merge_busy_blocks Y true) := by
  have hstartsorted : ∀ Z : List IV,
      (sortBy ltStart Z).Pairwise (fun a b : IV => a.1 ≤ b.1) := by
    intro Z
    refine (sortBy_pairwise ltStart ?_ ?_ Z).imp ?_
    · intro a b h
      simp only [ltStart, decide_eq_true_eq] at h
      simp only [ltStart, decide_eq_false_iff_not, not_lt]
      linarith
    · intro a b c h1 h2
      simp only [ltStart, decide_eq_false_iff_not, not_lt] at h1 h2 ⊢
      linarith
    · intro a b h
      simp only [ltStart, decide_eq_false_iff_not, not_lt] at h
      exact h
  constructor
  · intro Z
    rw [merge_runMerge Z]
    cases hZ : sortBy ltStart Z with
    | nil => rfl
    | cons b t =>
      obtain ⟨s, e⟩ := b
      have hsorted := hstartsorted Z
      rw [hZ, List.pairwise_cons] at hsorted
      obtain ⟨hchain, -, houtsorted⟩ :=
        mergeGo_invariants t s e (fun b hb => hsorted.1 b hb) hsorted.2
      show merge_busy_blocks (mergeGo true s e t) true = mergeGo true s e t
      rw [merge_runMerge, sortBy_of_pairwise ltStart _ (houtsorted.imp ?imp)]
      case imp =>
        intro a b h
        simp only [ltStart, decide_eq_false_iff_not, not_lt]
        exact h
      obtain ⟨e0, r, hr⟩ := mergeGo_head t s e
      rw [hr]
      show runMerge ((s, e0) :: r) = (s, e0) :: r
      rw [hr] at hchain
      exact mergeGo_gapped r s e0 hchain
  · intro X Y hperm hval
    have hvalY : ∀ b ∈ Y, b.1 ≤ b.2 := fun b hb => hval b (hperm.mem_iff.2 hb)
    have hvalA : ∀ b ∈ sortBy ltStart X, b.1 ≤ b.2 :=
      fun b hb => hval b ((sortBy_perm _ _).mem_iff.1 hb)
    have hvalB : ∀ b ∈ sortBy ltStart Y, b.1 ≤ b.2 :=
      fun b hb => hvalY b ((sortBy_perm _ _).mem_iff.1 hb)
    rw [merge_runMerge X, merge_runMerge Y,
      runMerge_lexSort _ (hstartsorted X) hvalA,
      runMerge_lexSort _ (hstartsorted Y) hvalB]
    congr 1
    have hpermAB : (sortBy lexLt (sortBy ltStart X)).Perm (sortBy lexLt (sortBy ltStart Y)) :=
      ((sortBy_perm lexLt _).trans ((sortBy_perm ltStart X).trans
        (hperm.trans ((sortBy_perm ltStart Y).symm)))).trans (sortBy_perm lexLt _).symm
    have hsA := sortBy_pairwise lexLt lexLt_asym lexLt_negtrans (sortBy ltStart X)
    have hsB := sortBy_pairwise lexLt lexLt_asym lexLt_negtrans (sortBy ltStart Y)
    exact @List.eq_of_perm_of_sorted IV (fun a b => lexLt b a = false)
      ⟨fun a b h1 h2 => by
        rw [lexLt_false_iff] at h1 h2
        rcases h1 with h1 | ⟨h1a, h1b⟩ <;> rcases h2 with h2 | ⟨h2a, h2b⟩
        · exact absurd (lt_trans h1 h2) (lt_irrefl _)
        · exact absurd (h2a ▸ h1) (lt_irrefl _)
        · exact absurd (h1a ▸ h2) (lt_irrefl _)
        · exact Prod.ext h1a (le_antisymm h1b h2b)⟩
      _ _ hpermAB hsA hsB

/-- Witness for C8 at concrete lists. -/
theorem merge_idem_and_order_witness :
    (merge_busy_blocks (merge_busy_blocks [((0 : ℚ), 3), (2, 5)] true) true =
      merge_busy_blocks [((0 : ℚ), 3), (2, 5)] true) ∧
    (([((0 : ℚ), 3), (2, 5)] : List IV).Perm [((2 : ℚ), 5), (0, 3)] ∧
      (∀ b ∈ ([((0 : ℚ), 3), (2, 5)] : List IV), b.1 ≤ b.2) ∧
      merge_busy_blocks [((0 : ℚ), 3), (2, 5)] true =
        merge_busy_blocks [((2 : ℚ), 5), (0, 3)] true) :=
  ⟨merge_idem_and_order.1 [((0 : ℚ), 3), (2, 5)],
    List.Perm.swap _ _ _, by decide,
    merge_idem_and_order.2 [((0 : ℚ), 3), (2, 5)] [((2 : ℚ), 5), (0, 3)]
      (List.Perm.swap _ _ _) (by decide)⟩

/-! ### Claim C2: the scheduler never double-books a day -/

theorem Disj_symm {a b : IV} (h : Disj a b) : Disj b a := Or.symm h

theorem Disj_shrink {a b c : IV} (h : Disj a b) (h1 : a.1 ≤ c.1) (h2 : c.2 ≤ a.2) :
    Disj c b := by
  rcases h with h | h
  · exact Or.inl (le_trans h2 h)
  · exact Or.inr (le_trans h h1)

theorem Disj_shrink_right {a b c : IV} (h : Disj a b) (h1 : b.1 ≤ c.1) (h2 : c.2 ≤ b.2) :
    Disj a c :=
  Disj_symm (Disj_shrink (Disj_symm h) h1 h2)

theorem placeInDay_spec (dur brk : ℚ) (hdur : 0 ≤ dur) (hbrk : 0 ≤ brk) :
    ∀ (l : List IV) (a b : ℚ) (nb : List IV),
      l.Pairwise Disj →
      placeInDay dur brk l = some (a, b, nb) →
      b = a + dur ∧
      (∃ blk ∈ l, blk.1 ≤ a ∧ b ≤ blk.2) ∧
      (∀ c ∈ nb, ∃ blk ∈ l, blk.1 ≤ c.1 ∧ c.2 ≤ blk.2) ∧
      nb.Pairwise Disj ∧
      (∀ c ∈ nb, Disj (a, b) c) := by
  intro l
  induction l with
  | nil =>
    intro a b nb _ h
    exact Option.noConfusion h
  | cons blk l ih =>
    obtain ⟨s, e⟩ := blk
    intro a b nb hpair h
    rw [List.pairwise_cons] at hpair
    rw [placeInDay] at h
    by_cases hfit : dur ≤ e - s
    · rw [if_pos hfit] at h
      have hinj := Option.some.inj h
      rw [Prod.mk.injEq, Prod.mk.injEq] at hinj
      obtain ⟨rfl, rfl, rfl⟩ := hinj
      have hend : s + dur ≤ e := by linarith
      refine ⟨rfl, ⟨(s, e), by simp, le_refl _, hend⟩, ?_, ?_, ?_⟩
      · intro c hc
        by_cases hrem : s + dur + brk < e
        · rw [if_pos hrem] at hc
          rcases List.mem_cons.1 hc with rfl | hc2
          · exact ⟨(s, e), by simp, by simp; linarith, by simp⟩
          · exact ⟨c, List.mem_cons_of_mem _ hc2, le_refl _, le_refl _⟩
        · rw [if_neg hrem] at hc
          exact ⟨c, List.mem_cons_of_mem _ hc, le_refl _, le_refl _⟩
      · by_cases hrem : s + dur + brk < e
        · rw [if_pos hrem, List.pairwise_cons]
          refine ⟨?_, hpair.2⟩
          intro c hc
          exact Disj_shrink (hpair.1 c hc) (by simp; linarith) (by simp)
        · rw [if_neg hrem]
          exact hpair.2
      · intro c hc
        by_cases hrem : s + dur + brk < e
        · rw [if_pos hrem] at hc
          rcases List.mem_cons.1 hc with rfl | hc2
          · exact Or.inl (by simp; linarith)
          · exact Disj_shrink (hpair.1 c hc2) (le_refl _) hend
        · rw [if_neg hrem] at hc
          exact Disj_shrink (hpair.1 c hc) (le_refl _) hend
    · rw [if_neg hfit] at h
      cases hrec : placeInDay dur brk l with
      | none => rw [hrec] at h; exact Option.noConfusion h
      | some r =>
        obtain ⟨a2, b2, nb2⟩ := r
        rw [hrec] at h
        have hinj : ((a2, b2, (s, e) :: nb2) : ℚ × ℚ × List IV) = (a, b, nb) :=
          Option.some.inj h
        rw [Prod.mk.injEq, Prod.mk.injEq] at hinj
        obtain ⟨rfl, rfl, rfl⟩ := hinj
        obtain ⟨hab, ⟨blk, hblk, hblk1, hblk2⟩, hsub, hpair2, hdisj⟩ :=
          ih a2 b2 nb2 hpair.2 hrec
        refine ⟨hab, ⟨blk, List.mem_cons_of_mem _ hblk, hblk1, hblk2⟩, ?_, ?_, ?_⟩
        · intro c hc
          rcases List.mem_cons.1 hc with rfl | hc2
          · exact ⟨(s, e), by simp, le_refl _, le_refl _⟩
          · obtain ⟨blk2, hb2, hb21, hb22⟩ := hsub c hc2
            exact ⟨blk2, List.mem_cons_of_mem _ hb2, hb21, hb22⟩
        · rw [List.pairwise_cons]
          refine ⟨?_, hpair2⟩
          intro c hc
          obtain ⟨blk2, hb2, hb21, hb22⟩ := hsub c hc
          exact Disj_shrink_right (hpair.1 blk2 hb2) hb21 hb22
        · intro c hc
          rcases List.mem_cons.1 hc with rfl | hc2
          · exact Disj_shrink (Disj_symm (hpair.1 blk hblk)) hblk1 hblk2
          · exact hdisj c hc2

theorem tryDates_inv (maxM : ℤ) (brk : ℚ) (enf : Bool) (s : SessionR)
    (hdur : 0 ≤ s.duration_minutes) (hbrk : 0 ≤ brk) :
    ∀ (dates : List ℤ) (st : SState) (placed : List Placed) (p : Placed) (st' : SState),
      InvS st.blocks placed →
      tryDates maxM brk enf s st dates = some (p, st') →
      InvS st'.blocks (p :: placed) := by
  intro dates
  induction dates with
  | nil =>
    intro st placed p st' _ h
    exact Option.noConfusion h
  | cons d rest ih =>
    intro st placed p st' hinv h
    rw [tryDates] at h
    by_cases h1 : s.due_date < d
    · rw [if_pos h1] at h
      exact Option.noConfusion h
    · rw [if_neg h1] at h
      by_cases h2 : maxM < st.usage d + s.duration_minutes
      · rw [if_pos h2] at h
        exact ih st placed p st' hinv h
      · rw [if_neg h2] at h
        by_cases h3 : enf ∧ s.class_name ∈ st.classes d ∧ s.class_name ≠ "General"
        · rw [if_pos h3] at h
          exact ih st placed p st' hinv h
        · rw [if_neg h3] at h
          cases hp : placeInDay (s.duration_minutes : ℚ) brk (st.blocks d) with
          | none =>
            rw [hp] at h
            exact ih st placed p st' hinv h
          | some r =>
            obtain ⟨a, b, nb⟩ := r
            rw [hp] at h
            have hinj := Option.some.inj h
            rw [Prod.mk.injEq] at hinj
            obtain ⟨hinj1, hinj2⟩ := hinj
            subst hinj1
            subst hinj2
            dsimp only
            obtain ⟨hab, ⟨blk, hblk, hblk1, hblk2⟩, hsub, hpairnb, hdisjnb⟩ :=
              placeInDay_spec (s.duration_minutes : ℚ) brk (by exact_mod_cast hdur) hbrk
                (st.blocks d) a b nb (hinv.1 d) hp
            obtain ⟨hbl, hplaced, hcross⟩ := hinv
            refine ⟨?_, ?_, ?_⟩
            · intro d2
              by_cases hd2 : d2 = d
              · subst hd2
                simp only [Function.update_same]
                exact hpairnb
              · simp only [Function.update_noteq hd2]
                exact hbl d2
            · rw [List.pairwise_cons]
              refine ⟨?_, hplaced⟩
              intro q hq hdate
              have hqd : q.date = d := hdate.symm
              have hqb := hcross q hq blk (by rw [hqd]; exact hblk)
              exact Disj_symm (Disj_shrink_right hqb hblk1 hblk2)
            · intro pp hpp
              rcases List.mem_cons.1 hpp with rfl | hpp2
              · simp only [Function.update_same]
                intro c hc
                exact hdisjnb c hc
              · intro c hc
                by_cases hd2 : pp.date = d
                · rw [hd2] at hc
                  simp only [Function.update_same] at hc
                  obtain ⟨blk2, hb2, hb21, hb22⟩ := hsub c hc
                  exact Disj_shrink_right (hcross pp hpp2 blk2 (by rw [hd2]; exact hb2)) hb21 hb22
                · simp only [Function.update_noteq hd2] at hc
                  exact hcross pp hpp2 c hc

theorem scheduleGo_inv (dates : List ℤ) (maxM : ℤ) (brk : ℚ) (enf : Bool) (hbrk : 0 ≤ brk) :
    ∀ (sessions : List SessionR) (st : SState) (placed : List Placed),
      (∀ s ∈ sessions, 0 ≤ s.duration_minutes) →
      InvS st.blocks placed →
      InvS (scheduleGo dates maxM brk enf st sessions).2.2.blocks
        ((scheduleGo dates maxM brk enf st sessions).1.reverse ++ placed) := by
  intro sessions
  induction sessions with
  | nil =>
    intro st placed _ hinv
    simpa [scheduleGo] using hinv
  | cons s rest ih =>
    intro st placed hd hinv
    rw [scheduleGo]
    cases ht : tryDates maxM brk enf s st dates with
    | none =>
      exact ih st placed (fun s2 hs2 => hd s2 (List.mem_cons_of_mem _ hs2)) hinv
    | some r =>
      obtain ⟨p, st2⟩ := r
      have hinv2 : InvS st2.blocks (p :: placed) :=
        tryDates_inv maxM brk enf s (hd s (by simp)) hbrk dates st placed p st2 hinv ht
      have := ih st2 (p :: placed) (fun s2 hs2 => hd s2 (List.mem_cons_of_mem _ hs2)) hinv2
      simpa [List.reverse_cons, List.append_assoc] using this

theorem scheduleGo_unsched_sub (dates : List ℤ) (maxM : ℤ) (brk : ℚ) (enf : Bool) :
    ∀ (sessions : List SessionR) (st : SState),
      ∀ s ∈ (scheduleGo dates maxM brk enf st sessions).2.1, s ∈ sessions := by
  intro sessions
  induction sessions with
  | nil => intro st s hs; simp [scheduleGo] at hs
  | cons s0 rest ih =>
    intro st s hs
    rw [scheduleGo] at hs
    cases ht : tryDates maxM brk enf s0 st dates with
    | none =>
      rw [ht] at hs
      rcases List.mem_cons.1 hs with rfl | hs2
      · simp
      · exact List.mem_cons_of_mem _ (ih st s hs2)
    | some r =>
      rw [ht] at hs
      exact List.mem_cons_of_mem _ (ih r.2 s hs)

/-- C2 counterexample: with two *overlapping* free blocks on the same day,
the two 50-minute sessions are both placed at minute 0 of day 0 and
overlap — the no-overlap guarantee needs the free-block map to hold
pairwise-disjoint blocks per day, which `build_free_blocks` provides but
the bare function input does not. -/
theorem schedule_overlap_cex :
    ((schedule_sessions_load_balanced [0] cexState [mkSess "a", mkSess "b"] 24 15 false).1.map
        fun p => (p.start, p.stop, p.date)) = [(0, 50, 0), (0, 50, 0)] ∧
    ¬ ((schedule_sessions_load_balanced [0] cexState [mkSess "a", mkSess "b"] 24 15
        false).1.Pairwise fun p q => p.date = q.date → ¬ overlapP p q) := by
  have heval : (schedule_sessions_load_balanced [0] cexState [mkSess "a", mkSess "b"] 24 15
      false).1.map (fun p => (p.start, p.stop, p.date)) = [(0, 50, 0), (0, 50, 0)] := by
    norm_num [schedule_sessions_load_balanced, scheduleGo, tryDates, placeInDay, sortBy,
      insertBy, cexState, cexBlocks, mkSess, Function.update_same, overlapP]
  refine ⟨heval, ?_⟩
  intro hp
  cases hl : (schedule_sessions_load_balanced [0] cexState [mkSess "a", mkSess "b"] 24 15
      false).1 with
  | nil => rw [hl] at heval; simp at heval
  | cons p t =>
    cases t with
    | nil => rw [hl] at heval; simp at heval
    | cons q t2 =>
      rw [hl] at heval hp
      simp only [List.map_cons, List.cons.injEq] at heval
      rw [List.pairwise_cons] at hp
      have hrel := hp.1 q (by simp)
      obtain ⟨hp1, hp23⟩ := Prod.mk.inj heval.1
      obtain ⟨hp2, hp3⟩ := Prod.mk.inj hp23
      obtain ⟨hq1, hq23⟩ := Prod.mk.inj heval.2.1
      obtain ⟨hq2, hq3⟩ := Prod.mk.inj hq23
      have hdate : p.date = q.date := by rw [hp3, hq3]
      have hov : overlapP p q := by
        unfold overlapP
        rw [hp1, hq1, hp2, hq2]
        norm_num
      exact hrel hdate hov

theorem Disj_not_overlap {p q : Placed} (h : Disj (pIV p) (pIV q)) : ¬ overlapP p q := by
  unfold overlapP
  intro hlt
  rcases h with h2 | h2
  · have ha : min p.stop q.stop ≤ p.stop := min_le_left _ _
    have hb : q.start ≤ max p.start q.start := le_max_right _ _
    have hc : p.stop ≤ q.start := h2
    linarith
  · have ha : min p.stop q.stop ≤ q.stop := min_le_right _ _
    have hb : p.start ≤ max p.start q.start := le_max_left _ _
    have hc : q.stop ≤ p.start := h2
    linarith

/-- C2 amended: for every free-block map whose per-date block lists are
pairwise disjoint (as `build_free_blocks` produces), every session list
with non-negative durations, any caps, a non-negative break, and fresh or
arbitrary usage/class trackers, the sessions placed across the phase-1
call and the phase-2 call (run on phase 1's leftovers with phase 1's
mutated blocks and trackers) never overlap on the same date.  Without the
disjointness of the input blocks the property fails (see the
counterexample). -/
theorem schedule_two_pass_no_overlap (keys : List ℤ) (bl : ℤ → List IV)
    (sessions : List SessionR) (cap1 cap2 : ℤ) (brk : ℚ) (e1 e2 : Bool)
    (usage0 : ℤ → ℤ) (classes0 : ℤ → List String)
    (hb : ∀ d, (bl d).Pairwise Disj)
    (hd : ∀ s ∈ sessions, 0 ≤ s.duration_minutes)
    (hbrk : 0 ≤ brk) :
    ((schedule_sessions_load_balanced keys ⟨bl, usage0, classes0⟩ sessions cap1 brk e1).1 ++
      (schedule_sessions_load_balanced keys
        (schedule_sessions_load_balanced keys ⟨bl, usage0, classes0⟩ sessions cap1 brk e1).2.2
        (schedule_sessions_load_balanced keys ⟨bl, usage0, classes0⟩ sessions cap1 brk e1).2.1
        cap2 brk e2).1).Pairwise
      (fun p q => p.date = q.date → ¬ overlapP p q) := by
  have hinv0 : InvS (⟨bl, usage0, classes0⟩ : SState).blocks ([] : List Placed) :=
    ⟨hb, by simp, by simp⟩
  have h1 : InvS (schedule_sessions_load_balanced keys ⟨bl, usage0, classes0⟩ sessions
        cap1 brk e1).2.2.blocks
      ((schedule_sessions_load_balanced keys ⟨bl, usage0, classes0⟩ sessions
        cap1 brk e1).1.reverse ++ []) :=
    scheduleGo_inv (sortBy (fun a b => decide (a < b)) keys) (cap1 * 60) brk e1 hbrk
      sessions ⟨bl, usage0, classes0⟩ [] hd hinv0
  have hd2 : ∀ s ∈ (schedule_sessions_load_balanced keys ⟨bl, usage0, classes0⟩ sessions
      cap1 brk e1).2.1, 0 ≤ s.duration_minutes := by
    intro s hs
    exact hd s (scheduleGo_unsched_sub (sortBy (fun a b => decide (a < b)) keys) (cap1 * 60)
      brk e1 sessions ⟨bl, usage0, classes0⟩ s hs)
  have h2 := scheduleGo_inv (sortBy (fun a b => decide (a < b)) keys) (cap2 * 60) brk e2 hbrk
    (schedule_sessions_load_balanced keys ⟨bl, usage0, classes0⟩ sessions cap1 brk e1).2.1
    (schedule_sessions_load_balanced keys ⟨bl, usage0, classes0⟩ sessions cap1 brk e1).2.2
    ((schedule_sessions_load_balanced keys ⟨bl, usage0, classes0⟩ sessions
      cap1 brk e1).1.reverse ++ []) hd2 h1
  have hpairwise := h2.2.1
  have hperm : ((schedule_sessions_load_balanced keys
        (schedule_sessions_load_balanced keys ⟨bl, usage0, classes0⟩ sessions cap1 brk e1).2.2
        (schedule_sessions_load_balanced keys ⟨bl, usage0, classes0⟩ sessions cap1 brk e1).2.1
        cap2 brk e2).1.reverse ++
      ((schedule_sessions_load_balanced keys ⟨bl, usage0, classes0⟩ sessions
        cap1 brk e1).1.reverse ++ [])).Perm
      ((schedule_sessions_load_balanced keys ⟨bl, usage0, classes0⟩ sessions cap1 brk e1).1 ++
        (schedule_sessions_load_balanced keys
          (schedule_sessions_load_balanced keys ⟨bl, usage0, classes0⟩ sessions cap1 brk e1).2.2
          (schedule_sessions_load_balanced keys ⟨bl, usage0, classes0⟩ sessions cap1 brk e1).2.1
          cap2 brk e2).1) := by
    refine List.Perm.trans
      ((List.reverse_perm _).append ((List.reverse_perm _).append (List.Perm.refl []))) ?_
    rw [List.append_nil]
    exact List.perm_append_comm
  have hfinal := (List.Perm.pairwise_iff
    (fun {p q} h heq => Disj_symm (h heq.symm)) hperm).1 hpairwise
  exact hfinal.imp fun h heq => Disj_not_overlap (h heq)

/-- Witness for C2 at a one-block map with a single 50-minute session. -/
theorem schedule_two_pass_no_overlap_witness :
    ((∀ d : ℤ, (wBlocks d).Pairwise Disj) ∧
      (∀ s ∈ [mkSess "a"], 0 ≤ s.duration_minutes) ∧ (0 : ℚ) ≤ 15) ∧
    ((schedule_sessions_load_balanced [0] ⟨wBlocks, fun _ => 0, fun _ => []⟩ [mkSess "a"]
          8 15 true).1 ++
      (schedule_sessions_load_balanced [0]
        (schedule_sessions_load_balanced [0] ⟨wBlocks, fun _ => 0, fun _ => []⟩ [mkSess "a"]
          8 15 true).2.2
        (schedule_sessions_load_balanced [0] ⟨wBlocks, fun _ => 0, fun _ => []⟩ [mkSess "a"]
          8 15 true).2.1
        24 15 false).1).Pairwise
      (fun p q => p.date = q.date → ¬ overlapP p q) :=
  ⟨⟨fun d => by simp [wBlocks], fun s hs => by
      rw [List.mem_singleton] at hs
      subst hs
      norm_num [mkSess], by norm_num⟩,
    schedule_two_pass_no_overlap [0] wBlocks [mkSess "a"] 8 24 15 true false
      (fun _ => 0) (fun _ => []) (fun d => by simp [wBlocks])
      (fun s hs => by
        rw [List.mem_singleton] at hs
        subst hs
        norm_num [mkSess])
      (by norm_num)⟩

/-! ### Claim C4: determinism and the injectability of "now" -/

/-- C4 counterexample: two runs with identical preferences, task lists and
busy documents but different system-clock readings give different outputs
(already the `ics_filename` differs, since the source stamps
`int(datetime.now().timestamp())` into it; the clock's time of day also
feeds `today_dt`).  `process_schedule_request` takes no "now" parameter —
it reads the system clock inside the run. -/
theorem process_clock_cex :
    process_schedule_request ⟨none, none, none, none⟩ [] [] 0 ≠
      process_schedule_request ⟨none, none, none, none⟩ [] [] 720 := by
  intro h
  have h2 := congrArg (Option.map fun r => r.ics_filename) h
  have hf1 : (process_schedule_request ⟨none, none, none, none⟩ [] [] 0).map
      (fun r => r.ics_filename) =
      some ("optimized_schedule_" ++ toString (pyTimestampSec 0) ++ ".ics") := rfl
  have hf2 : (process_schedule_request ⟨none, none, none, none⟩ [] [] 720).map
      (fun r => r.ics_filename) =
      some ("optimized_schedule_" ++ toString (pyTimestampSec 720) ++ ".ics") := rfl
  rw [hf1, hf2] at h2
  have hv1 : pyTimestampSec 0 = 0 := by norm_num [pyTimestampSec, truncQ]
  have hv2 : pyTimestampSec 720 = 43200 := by norm_num [pyTimestampSec, truncQ]
  rw [hv1, hv2] at h2
  exact absurd (Option.some.inj h2) (by decide)

/-- C4 amended: the run is a deterministic, side-effect-free function of
(preferences, tasks, busy documents) *and the system-clock reading*, which
enters only through two observables: the reading's time of day (combined
with the pinned `DEMO_START_DATE`) and its whole-second timestamp (stamped
into the output filename).  Two runs whose clock readings agree on those
observables produce identical results; "now" itself is not an injectable
parameter (see the counterexample). -/
theorem process_clock_dependence (prefs : WorkPrefs) (raw : List RawAssignment)
    (uploaded : List (List IV)) (n1 n2 : ℚ)
    (h1 : timeOfDay n1 = timeOfDay n2) (h2 : pyTimestampSec n1 = pyTimestampSec n2) :
    process_schedule_request prefs raw uploaded n1 =
      process_schedule_request prefs raw uploaded n2 := by
  unfold process_schedule_request
  rw [h1, h2]

/-- Witness for C4: the only way two readings agree on both observables is
to be equal, so the witness instantiates both at the same reading. -/
theorem process_clock_dependence_witness :
    (timeOfDay 30 = timeOfDay 30 ∧ pyTimestampSec 30 = pyTimestampSec 30) ∧
    process_schedule_request ⟨none, none, none, none⟩ [] [] 30 =
      process_schedule_request ⟨none, none, none, none⟩ [] [] 30 :=
  ⟨⟨rfl, rfl⟩, process_clock_dependence ⟨none, none, none, none⟩ [] [] 30 30 rfl rfl⟩

end CalendarMaker
